import Mathlib

/-!
Verification of the smart-food-manager core (Ingredient / Recipe / Meal).

Shallow embedding conventions:
* C++ `double` is modelled as `ℚ` (exact arithmetic; the source performs only
  field operations on doubles).
* C++ `int` and `time_t` are modelled as `Int` (no operation in the embedded
  code approaches the 32-bit range on the inputs considered).
* `std::map<std::string, double>` is modelled as an association list kept in
  strictly increasing key order, mirroring the sorted iteration order of
  `std::map`.
* Throwing `std::invalid_argument` is modelled by returning
  `Except.error Err.invalidArgument`; in every embedded operation the source
  performs all validation before the first mutation, so an error result leaves
  the receiver exactly as it was.
* `std::shared_ptr<Ingredient>` arguments that are tested for null are
  modelled as `Option Ingredient`.  Aliasing through shared pointers is
  modelled separately by a store-based model (`Store`, `MealP`) where it is
  the property under test.
* Random id generation (`generateId`) is modelled by passing the generated id
  as an explicit argument; no claim depends on its value.
-/

namespace SmartFood

deriving instance DecidableEq for Except

/-- The single error kind raised by the core: `std::invalid_argument`. -/
inductive Err where
  | invalidArgument
deriving DecidableEq, Repr

/-- C++ `std::map<std::string, double>`, as a key-sorted association list. -/
abbrev StrMap := List (String × ℚ)

/-- Well-formedness of a `StrMap`: strictly increasing keys, as maintained by
`std::map`. -/
def StrMap.WF (m : StrMap) : Prop :=
  List.Pairwise (fun a b => a.1 < b.1) m

instance (m : StrMap) : Decidable (StrMap.WF m) := by
  unfold StrMap.WF; infer_instance

/-- C++ `map[key] = value` on `std::map`: insert or update, keeping keys sorted. -/
def StrMap.upsert (k : String) (v : ℚ) : StrMap → StrMap
  | [] => [(k, v)]
  | (k2, v2) :: rest =>
    if k < k2 then (k, v) :: (k2, v2) :: rest
    else if k = k2 then (k, v) :: rest
    else (k2, v2) :: StrMap.upsert k v rest

/-- C++ `map.erase(key)` on `std::map`: drop the (unique, if well-formed) entry. -/
def StrMap.eraseKey (k : String) (m : StrMap) : StrMap :=
  List.eraseP (fun p => p.1 == k) m

/-- C++ `Ingredient::Unit` (ingredient.hpp). -/
inductive Ingredient.Unit where
  | gram | kilogram | milliliter | liter | piece
  | teaspoon | tablespoon | cup | ounce | pound
deriving DecidableEq, Repr, Inhabited

/-- C++ `static_cast<int>` on `Ingredient::Unit` (declaration order 0..9). -/
def Ingredient.Unit.toInt : Ingredient.Unit → Int
  | .gram => 0 | .kilogram => 1 | .milliliter => 2 | .liter => 3 | .piece => 4
  | .teaspoon => 5 | .tablespoon => 6 | .cup => 7 | .ounce => 8 | .pound => 9

/-- C++ `static_cast<Ingredient::Unit>` on an `int`.  Only values 0..9 (the ones
`serialize` can produce) are meaningful; other values are mapped to `gram`,
a modelling default for behaviour the source leaves undefined. -/
def Ingredient.Unit.ofInt (n : Int) : Ingredient.Unit :=
  if n = 1 then .kilogram else if n = 2 then .milliliter
  else if n = 3 then .liter else if n = 4 then .piece
  else if n = 5 then .teaspoon else if n = 6 then .tablespoon
  else if n = 7 then .cup else if n = 8 then .ounce
  else if n = 9 then .pound else .gram

/-- The `Ingredient` aggregate (ingredient.hpp private fields). -/
structure Ingredient where
  id : String
  name : String
  quantity : ℚ
  unit : Ingredient.Unit
  unitPrice : ℚ
  expiryDate : Int
  nutritionalInfo : StrMap
deriving DecidableEq, Repr, Inhabited

namespace Ingredient

/-- C++ `Ingredient::Ingredient(const std::string&)`: sets the name and defaults;
performs no validation of the name (ingredient.cpp lines 20-26).  `newId` is
the id produced by `generateId()`. -/
def ctorNamed (newId name : String) : Ingredient :=
  { id := newId, name := name, quantity := 0, unit := .gram, unitPrice := 0,
    expiryDate := 0, nutritionalInfo := [] }

/-- C++ `Ingredient::Ingredient(name, quantity, unit)`: rejects a negative
quantity; performs no validation of the name (ingredient.cpp lines 28-37). -/
def ctorFull (newId name : String) (quantity : ℚ) (unit : Ingredient.Unit) :
    Except Err Ingredient :=
  if quantity < 0 then .error .invalidArgument
  else .ok { id := newId, name := name, quantity := quantity, unit := unit,
             unitPrice := 0, expiryDate := 0, nutritionalInfo := [] }

/-- C++ `Ingredient::setName`: rejects the empty string. -/
def setName (i : Ingredient) (name : String) : Except Err Ingredient :=
  if name = "" then .error .invalidArgument
  else .ok { i with name := name }

/-- C++ `Ingredient::setQuantity`: rejects a negative quantity. -/
def setQuantity (i : Ingredient) (quantity : ℚ) : Except Err Ingredient :=
  if quantity < 0 then .error .invalidArgument
  else .ok { i with quantity := quantity }

/-- C++ `Ingredient::setUnit`. -/
def setUnit (i : Ingredient) (unit : Ingredient.Unit) : Ingredient :=
  { i with unit := unit }

/-- C++ `Ingredient::setUnitPrice`: rejects a negative price. -/
def setUnitPrice (i : Ingredient) (price : ℚ) : Except Err Ingredient :=
  if price < 0 then .error .invalidArgument
  else .ok { i with unitPrice := price }

/-- C++ `Ingredient::setExpiryDate`. -/
def setExpiryDate (i : Ingredient) (date : Int) : Ingredient :=
  { i with expiryDate := date }

/-- C++ `Ingredient::scale`: rejects a non-positive factor, otherwise multiplies
the quantity by it (ingredient.cpp lines 79-84). -/
def scale (i : Ingredient) (factor : ℚ) : Except Err Ingredient :=
  if factor ≤ 0 then .error .invalidArgument
  else .ok { i with quantity := i.quantity * factor }

/-- C++ `Ingredient::addNutritionalInfo`: rejects a negative value, otherwise
upserts (ingredient.cpp lines 86-91). -/
def addNutritionalInfo (i : Ingredient) (nutrient : String) (value : ℚ) :
    Except Err Ingredient :=
  if value < 0 then .error .invalidArgument
  else .ok { i with nutritionalInfo := i.nutritionalInfo.upsert nutrient value }

/-- C++ `Ingredient::removeNutritionalInfo`. -/
def removeNutritionalInfo (i : Ingredient) (nutrient : String) : Ingredient :=
  { i with nutritionalInfo := i.nutritionalInfo.eraseKey nutrient }

/-- C++ `Ingredient::calculateCost` = quantity × unit price. -/
def calculateCost (i : Ingredient) : ℚ :=
  i.quantity * i.unitPrice

end Ingredient

/-- The cost-summation loop shared by `Recipe::calculateTotalCost` and
`Meal::updateCost`: the sum of `calculateCost()` over a list. -/
def ingredientsTotal (l : List Ingredient) : ℚ :=
  (l.map Ingredient.calculateCost).sum

/-- The JSON object produced by `Ingredient::serialize` (field-level view of
the emitted document). -/
structure IngredientJson where
  id : String
  name : String
  quantity : ℚ
  unit : Int
  unitPrice : ℚ
  expiryDate : Int
  nutritionalInfo : StrMap
deriving DecidableEq, Repr

/-- C++ `Ingredient::serialize` (ingredient.cpp lines 165-176). -/
def Ingredient.serialize (i : Ingredient) : IngredientJson :=
  { id := i.id, name := i.name, quantity := i.quantity,
    unit := i.unit.toInt, unitPrice := i.unitPrice,
    expiryDate := i.expiryDate, nutritionalInfo := i.nutritionalInfo }

/-- C++ `Ingredient::deserialize` (ingredient.cpp lines 178-193): constructs via
the one-argument constructor (whose generated id is immediately overwritten),
sets each field through the validating setters, then re-adds each nutrient in
the serialized (key-sorted) order. -/
def Ingredient.deserialize (j : IngredientJson) : Except Err Ingredient := do
  let ing := Ingredient.ctorNamed "" j.name
  let ing := { ing with id := j.id }
  let ing ← ing.setQuantity j.quantity
  let ing := ing.setUnit (Ingredient.Unit.ofInt j.unit)
  let ing ← ing.setUnitPrice j.unitPrice
  let ing := ing.setExpiryDate j.expiryDate
  j.nutritionalInfo.foldlM (fun acc kv => acc.addNutritionalInfo kv.1 kv.2) ing

/-- C++ `Recipe::Difficulty` (recipe.hpp). -/
inductive Difficulty where
  | easy | medium | hard
deriving DecidableEq, Repr, Inhabited

/-- C++ `static_cast<int>` on `Recipe::Difficulty`. -/
def Difficulty.toInt : Difficulty → Int
  | .easy => 0 | .medium => 1 | .hard => 2

/-- C++ `static_cast<Recipe::Difficulty>` on an `int` (in-range values only;
out-of-range values default to `easy`, a modelling choice for behaviour the
source leaves undefined). -/
def Difficulty.ofInt (n : Int) : Difficulty :=
  if n = 1 then .medium else if n = 2 then .hard else .easy

/-- C++ `Recipe::Step` (recipe.hpp): order, description, duration in minutes. -/
structure Step where
  order : Int
  description : String
  duration : Int
deriving DecidableEq, Repr, Inhabited

/-- The comparator used by `std::sort` in `addStep`/`reorderStep`
(`a.order < b.order`), relaxed to `≤` as required for a sort order; on the
duplicate-free step lists maintained by `Recipe` both determine the same
sorted result. -/
def stepLE (a b : Step) : Prop := a.order ≤ b.order

instance : DecidableRel stepLE := fun a b => Int.decLe a.order b.order

instance : IsTotal Step stepLE := ⟨fun a b => Int.le_total a.order b.order⟩

instance : IsTrans Step stepLE := ⟨fun _ _ _ h h2 => le_trans h h2⟩

/-- C++ `std::sort(steps_.begin(), steps_.end(), by order)`. -/
def sortSteps (l : List Step) : List Step :=
  List.insertionSort stepLE l

/-- The `Recipe` aggregate (recipe.hpp private fields).  Ingredients are held
by value; pointer sharing is modelled separately where it matters. -/
structure Recipe where
  id : String
  name : String
  description : String
  difficulty : Difficulty
  servings : Int
  ingredients : List Ingredient
  steps : List Step
  nutritionalInfo : StrMap
deriving DecidableEq, Repr, Inhabited

namespace Recipe

/-- C++ `Recipe::Recipe()`: default values, empty lists (recipe.cpp lines 14-20).
`newId` is the id produced by `generateId()`. -/
def ctorDefault (newId : String) : Recipe :=
  { id := newId, name := "New Recipe", description := "",
    difficulty := .easy, servings := 1, ingredients := [], steps := [],
    nutritionalInfo := [] }

/-- C++ `Recipe::Recipe(name, description)`: rejects an empty name
(recipe.cpp lines 42-51). -/
def ctorNamed (newId name description : String) : Except Err Recipe :=
  if name = "" then .error .invalidArgument
  else .ok { id := newId, name := name, description := description,
             difficulty := .easy, servings := 1, ingredients := [],
             steps := [], nutritionalInfo := [] }

/-- C++ `Recipe::setServings`: rejects a non-positive value
(recipe.cpp lines 128-133). -/
def setServings (r : Recipe) (servings : Int) : Except Err Recipe :=
  if servings ≤ 0 then .error .invalidArgument
  else .ok { r with servings := servings }

/-- C++ `Recipe::recalculateNutritionalInfo` (recipe.cpp lines 327-336): clear the
totals, then accumulate every nutrient of every ingredient additively
(`nutritionalInfo_[nutrient] += value`, reading 0 for an absent key). -/
def recalculateNutritionalInfo (r : Recipe) : Recipe :=
  let addOne : StrMap → String × ℚ → StrMap := fun acc kv =>
    acc.upsert kv.1 (((acc.find? (fun p => p.1 == kv.1)).map Prod.snd).getD 0 + kv.2)
  { r with nutritionalInfo :=
      r.ingredients.foldl (fun acc i => i.nutritionalInfo.foldl addOne acc) [] }

/-- C++ `Recipe::addIngredient` (recipe.cpp lines 136-142): rejects a null
pointer, appends, recomputes the nutrient totals. -/
def addIngredient (r : Recipe) (ingredient : Option Ingredient) :
    Except Err Recipe :=
  match ingredient with
  | none => .error .invalidArgument
  | some i =>
    .ok (recalculateNutritionalInfo { r with ingredients := r.ingredients ++ [i] })

/-- C++ `Recipe::removeIngredient` (recipe.cpp lines 144-154): erase the first
ingredient with the given id, if any, and recompute the nutrient totals. -/
def removeIngredient (r : Recipe) (ingredientId : String) : Recipe :=
  if r.ingredients.any (fun i => i.id == ingredientId) then
    recalculateNutritionalInfo
      { r with ingredients := r.ingredients.eraseP (fun i => i.id == ingredientId) }
  else r

/-- The shift applied by `addStep` on a duplicate order: a step whose order
is ≥ the incoming order moves up by one. -/
def shiftStep (k : Int) (e : Step) : Step :=
  if k ≤ e.order then { e with order := e.order + 1 } else e

/-- C++ `Recipe::addStep` (recipe.cpp lines 156-183): rejects a non-positive
order; if the order is already occupied, first shifts every step whose order
is ≥ the new order up by one; pushes the new step; sorts by order. -/
def addStep (r : Recipe) (step : Step) : Except Err Recipe :=
  if step.order ≤ 0 then .error .invalidArgument
  else
    let steps1 :=
      if r.steps.any (fun e => e.order == step.order) then
        r.steps.map (shiftStep step.order)
      else r.steps
    .ok { r with steps := sortSteps (steps1 ++ [step]) }

/-- Renumbering loop of `Recipe::removeStep`: assign orders `n, n+1, ...` in
the current relative order. -/
def renumberFrom (n : Int) : List Step → List Step
  | [] => []
  | s :: rest => { s with order := n } :: renumberFrom (n + 1) rest

/-- C++ `Recipe::removeStep` (recipe.cpp lines 185-200): erase the first step with
the given order (no-op if none matches), then renumber the remaining steps to
a contiguous 1..N sequence. -/
def removeStep (r : Recipe) (order : Int) : Recipe :=
  if r.steps.any (fun s => s.order == order) then
    { r with steps := renumberFrom 1 (r.steps.eraseP (fun s => s.order == order)) }
  else r

/-- The shift applied by `reorderStep` to the steps other than the moved one:
a step strictly between the two positions moves one slot toward the vacated
one, the direction depending on which of the two orders is larger. -/
def reorderShift (oldOrder newOrder : Int) (e : Step) : Step :=
  if oldOrder < newOrder then
    if oldOrder < e.order ∧ e.order ≤ newOrder then
      { e with order := e.order - 1 } else e
  else
    if newOrder ≤ e.order ∧ e.order < oldOrder then
      { e with order := e.order + 1 } else e

/-- C++ `Recipe::reorderStep` (recipe.cpp lines 202-240): rejects non-positive
orders and a missing `oldOrder`; extracts the target step, shifts every other
step strictly between the two positions by one toward the vacated slot,
reinserts the target at `newOrder`, and sorts by order. -/
def reorderStep (r : Recipe) (oldOrder newOrder : Int) : Except Err Recipe :=
  if oldOrder ≤ 0 ∨ newOrder ≤ 0 then .error .invalidArgument
  else
    match r.steps.find? (fun s => s.order == oldOrder) with
    | none => .error .invalidArgument
    | some st =>
      let rest := r.steps.eraseP (fun s => s.order == oldOrder)
      let shifted := rest.map (reorderShift oldOrder newOrder)
      .ok { r with steps := sortSteps (shifted ++ [{ st with order := newOrder }]) }

/-- C++ `Recipe::calculateTotalCost`: sum of the ingredient costs. -/
def calculateTotalCost (r : Recipe) : ℚ :=
  ingredientsTotal r.ingredients

/-- C++ `Recipe::isValid` (recipe.cpp lines 254-259). -/
def isValid (r : Recipe) : Prop :=
  r.name ≠ "" ∧ 0 < r.servings ∧ r.ingredients ≠ [] ∧ r.steps ≠ []

end Recipe

/-- A step object inside the JSON document of `Recipe::serialize`. -/
structure StepJson where
  order : Int
  description : String
  duration : Int
deriving DecidableEq, Repr

/-- The step-to-JSON conversion inside `Recipe::serialize`. -/
def Step.toJson (s : Step) : StepJson :=
  { order := s.order, description := s.description, duration := s.duration }

/-- The step reconstruction inside `Recipe::deserialize`. -/
def StepJson.toStep (sj : StepJson) : Step :=
  { order := sj.order, description := sj.description, duration := sj.duration }

/-- The JSON object produced by `Recipe::serialize`. -/
structure RecipeJson where
  id : String
  name : String
  description : String
  difficulty : Int
  servings : Int
  ingredients : List IngredientJson
  steps : List StepJson
  nutritionalInfo : StrMap
deriving DecidableEq, Repr

/-- C++ `Recipe::serialize` (recipe.cpp lines 261-286). -/
def Recipe.serialize (r : Recipe) : RecipeJson :=
  { id := r.id, name := r.name, description := r.description,
    difficulty := r.difficulty.toInt, servings := r.servings,
    ingredients := r.ingredients.map Ingredient.serialize,
    steps := r.steps.map Step.toJson,
    nutritionalInfo := r.nutritionalInfo }

/-- C++ `Recipe::deserialize` (recipe.cpp lines 288-312): constructs via the
validating two-argument constructor (generated id immediately overwritten),
sets difficulty and servings through the setters, re-adds every ingredient
and step through the normal mutating paths, then assigns the nutrient map
directly from the document. -/
def Recipe.deserialize (j : RecipeJson) : Except Err Recipe := do
  let r ← Recipe.ctorNamed "" j.name j.description
  let r := { r with id := j.id }
  let r := { r with difficulty := Difficulty.ofInt j.difficulty }
  let r ← r.setServings j.servings
  let r ← j.ingredients.foldlM (fun acc ij => do
      let i ← Ingredient.deserialize ij
      acc.addIngredient (some i)) r
  let r ← j.steps.foldlM (fun acc sj => acc.addStep sj.toStep) r
  .ok { r with nutritionalInfo := j.nutritionalInfo }

/-- C++ `Meal::Type` (meal.hpp). -/
inductive MealType where
  | breakfast | lunch | dinner | snack
deriving DecidableEq, Repr, Inhabited

/-- C++ `static_cast<int>` on `Meal::Type`. -/
def MealType.toInt : MealType → Int
  | .breakfast => 0 | .lunch => 1 | .dinner => 2 | .snack => 3

/-- C++ `static_cast<Meal::Type>` on an `int` (in-range values only; out-of-range
values default to `breakfast`). -/
def MealType.ofInt (n : Int) : MealType :=
  if n = 1 then .lunch else if n = 2 then .dinner
  else if n = 3 then .snack else .breakfast

/-- C++ `Meal::Status` (meal.hpp). -/
inductive MealStatus where
  | planned | shopping | preparing | ready | consumed
deriving DecidableEq, Repr, Inhabited

/-- C++ `static_cast<int>` on `Meal::Status`. -/
def MealStatus.toInt : MealStatus → Int
  | .planned => 0 | .shopping => 1 | .preparing => 2 | .ready => 3
  | .consumed => 4

/-- C++ `static_cast<Meal::Status>` on an `int` (in-range values only;
out-of-range values default to `planned`). -/
def MealStatus.ofInt (n : Int) : MealStatus :=
  if n = 1 then .shopping else if n = 2 then .preparing
  else if n = 3 then .ready else if n = 4 then .consumed else .planned

/-- The `Meal` aggregate (meal.hpp private fields).  The optional recipe and
the ingredient list are held by value; pointer sharing is modelled separately
where it matters. -/
structure Meal where
  name : String
  type : MealType
  status : MealStatus
  plannedTime : Int
  recipe : Option Recipe
  ingredients : List Ingredient
  estimatedCost : ℚ
  servings : Int
deriving DecidableEq, Repr, Inhabited

namespace Meal

/-- C++ `Meal::Meal(const std::string&)` (meal.cpp lines 19-26): no validation of
the name; `now` is the clock value stored into the planned time. -/
def ctorNamed (now : Int) (name : String) : Meal :=
  { name := name, type := .breakfast, status := .planned, plannedTime := now,
    recipe := none, ingredients := [], estimatedCost := 0, servings := 1 }

/-- C++ `Meal::setName`: rejects the empty string. -/
def setName (m : Meal) (name : String) : Except Err Meal :=
  if name = "" then .error .invalidArgument
  else .ok { m with name := name }

/-- C++ `Meal::setType`. -/
def setType (m : Meal) (type : MealType) : Meal :=
  { m with type := type }

/-- C++ `Meal::setStatus`. -/
def setStatus (m : Meal) (status : MealStatus) : Meal :=
  { m with status := status }

/-- C++ `Meal::setPlannedTime`. -/
def setPlannedTime (m : Meal) (time : Int) : Meal :=
  { m with plannedTime := time }

/-- C++ `Meal::updateCost` (meal.cpp lines 127-132): estimated cost becomes the
sum of the ingredient costs. -/
def updateCost (m : Meal) : Meal :=
  { m with estimatedCost := ingredientsTotal m.ingredients }

/-- C++ `Meal::scaleServings` (meal.cpp lines 109-125): rejects a non-positive
target; no-op when the target equals the current count; otherwise scales every
ingredient by `newServings / servings_` through `Ingredient::scale`, updates
the serving count, and recomputes the cost. -/
def scaleServings (m : Meal) (newServings : Int) : Except Err Meal :=
  if newServings ≤ 0 then .error .invalidArgument
  else if m.servings = newServings then .ok m
  else do
    let scaleFactor : ℚ := (newServings : ℚ) / (m.servings : ℚ)
    let ings ← m.ingredients.mapM (fun i => i.scale scaleFactor)
    .ok (updateCost { m with ingredients := ings, servings := newServings })

/-- C++ `Meal::setServings` (meal.cpp lines 80-86): rejects a non-positive value,
assigns `servings_`, then calls `scaleServings` with the same value. -/
def setServings (m : Meal) (servings : Int) : Except Err Meal :=
  if servings ≤ 0 then .error .invalidArgument
  else Meal.scaleServings { m with servings := servings } servings

/-- C++ `Meal::setRecipe` (meal.cpp lines 67-78): stores the pointer; when it is
non-null, clears the ingredient list, copies each recipe ingredient, calls
`scaleServings` with the current serving count, and recomputes the cost. -/
def setRecipe (m : Meal) (recipe : Option Recipe) : Except Err Meal :=
  match recipe with
  | none => .ok { m with recipe := none }
  | some r => do
    let m1 := { m with recipe := some r, ingredients := r.ingredients }
    let m2 ← m1.scaleServings m1.servings
    .ok (updateCost m2)

/-- C++ `Meal::addIngredient` (meal.cpp lines 89-95): rejects a null pointer,
appends, recomputes the cost. -/
def addIngredient (m : Meal) (ingredient : Option Ingredient) :
    Except Err Meal :=
  match ingredient with
  | none => .error .invalidArgument
  | some i => .ok (updateCost { m with ingredients := m.ingredients ++ [i] })

/-- C++ `Meal::removeIngredient` (meal.cpp lines 97-107): erase the first
ingredient with the given id, if any, and recompute the cost. -/
def removeIngredient (m : Meal) (ingredientId : String) : Meal :=
  if m.ingredients.any (fun i => i.id == ingredientId) then
    updateCost
      { m with ingredients := m.ingredients.eraseP (fun i => i.id == ingredientId) }
  else m

/-- C++ `Meal::isComplete` (meal.cpp lines 134-136). -/
def isComplete (m : Meal) : Prop :=
  m.ingredients ≠ [] ∧ m.status ≠ .planned

/-- C++ `Meal::calculateNutritionalValue` (meal.cpp lines 138-148): sum of the
`"calories"` entries only. -/
def calculateNutritionalValue (m : Meal) : ℚ :=
  (m.ingredients.map (fun i =>
    ((i.nutritionalInfo.find? (fun p => p.1 == "calories")).map Prod.snd).getD 0)).sum

end Meal

/-- The JSON object produced by `Meal::serialize`. -/
structure MealJson where
  name : String
  type : Int
  status : Int
  plannedTime : Int
  estimatedCost : ℚ
  servings : Int
  ingredients : List IngredientJson
  recipe : Option RecipeJson
deriving DecidableEq, Repr

/-- C++ `Meal::serialize` (meal.cpp lines 150-169): scalar fields, the own
ingredient list of the meal, and the attached recipe when present. -/
def Meal.serialize (m : Meal) : MealJson :=
  { name := m.name, type := m.type.toInt, status := m.status.toInt,
    plannedTime := m.plannedTime, estimatedCost := m.estimatedCost,
    servings := m.servings,
    ingredients := m.ingredients.map Ingredient.serialize,
    recipe := m.recipe.map Recipe.serialize }

/-- C++ `Meal::deserialize` (meal.cpp lines 171-192): constructs the meal (the
constructor stores the current clock into the planned time, a value that the
next line overwrites; 0 is passed here for it), sets type, status, planned
time, assigns cost and servings directly, re-adds the own ingredients of the meal
through `addIngredient`, and finally — when a recipe object is embedded —
deserializes it and attaches it through `setRecipe`. -/
def Meal.deserialize (j : MealJson) : Except Err Meal := do
  let m := Meal.ctorNamed 0 j.name
  let m := m.setType (MealType.ofInt j.type)
  let m := m.setStatus (MealStatus.ofInt j.status)
  let m := m.setPlannedTime j.plannedTime
  let m := { m with estimatedCost := j.estimatedCost }
  let m := { m with servings := j.servings }
  let m ← j.ingredients.foldlM (fun acc ij => do
      let i ← Ingredient.deserialize ij
      acc.addIngredient (some i)) m
  match j.recipe with
  | none => .ok m
  | some rj => do
    let r ← Recipe.deserialize rj
    m.setRecipe (some r)

/-!
Pointer-level model of the `shared_ptr<Ingredient>` graph, used where pointer
identity is the property under test (`Meal::setRecipe` copying semantics).
A `Store` is the heap of ingredient objects; recipes and meals hold indices
into it.  `make_shared<Ingredient>(*p)` is modelled by appending a copy of the
pointed-to value to the store.
-/

/-- The heap of `Ingredient` objects reachable through shared pointers. -/
abbrev Store := List Ingredient

/-- Dereference a pointer (index).  Out-of-range indices — impossible for the
pointers handed out by the modelled operations — return `default`. -/
def Store.lookup (st : Store) (p : Nat) : Ingredient :=
  st.getD p default

/-- Write through a pointer: `*p = i`. -/
def Store.write (st : Store) (p : Nat) (i : Ingredient) : Store :=
  st.set p i

/-- The copy loop of `Meal::setRecipe`: for each source pointer, allocate a
fresh cell holding a copy of the pointed-to ingredient
(`make_shared<Ingredient>(*ingredient)`), collecting the new pointers. -/
def Store.allocCopies (st : Store) : List Nat → Store × List Nat
  | [] => (st, [])
  | p :: rest =>
    let st1 := st ++ [st.lookup p]
    let (st2, ptrs) := st1.allocCopies rest
    (st2, st.length :: ptrs)

/-- The `Recipe`, pointer view: only the fields `Meal::setRecipe` reads. -/
structure RecipeP where
  servings : Int
  ingredients : List Nat
deriving DecidableEq, Repr

/-- The `Meal`, pointer view: the ingredient list holds pointers into the store. -/
structure MealP where
  name : String
  type : MealType
  status : MealStatus
  plannedTime : Int
  recipe : Option RecipeP
  ingredients : List Nat
  estimatedCost : ℚ
  servings : Int
deriving DecidableEq, Repr

namespace MealP

/-- C++ `Meal::updateCost`, pointer view: sum the costs of the pointed-to
ingredients. -/
def updateCostP (st : Store) (m : MealP) : MealP :=
  { m with estimatedCost :=
      (m.ingredients.map (fun p => (st.lookup p).calculateCost)).sum }

/-- C++ `Meal::scaleServings`, pointer view: identical control flow to the value
view, with `ingredient->scale(factor)` writing through each pointer. -/
def scaleServingsP (st : Store) (m : MealP) (newServings : Int) :
    Except Err (Store × MealP) :=
  if newServings ≤ 0 then .error .invalidArgument
  else if m.servings = newServings then .ok (st, m)
  else do
    let scaleFactor : ℚ := (newServings : ℚ) / (m.servings : ℚ)
    let st2 ← m.ingredients.foldlM (fun acc p => do
        let i ← (Store.lookup acc p).scale scaleFactor
        Except.ok (acc.write p i)) st
    .ok (st2, updateCostP st2 { m with servings := newServings })

/-- C++ `Meal::setRecipe`, pointer view (meal.cpp lines 67-78): store the recipe;
when non-null, replace the ingredient pointers by pointers to freshly
allocated copies of the recipe ingredients, call `scaleServings` with the
current serving count, and recompute the cost. -/
def setRecipeP (st : Store) (m : MealP) (recipe : Option RecipeP) :
    Except Err (Store × MealP) :=
  match recipe with
  | none => .ok (st, { m with recipe := none })
  | some r => do
    let stPtrs := st.allocCopies r.ingredients
    let m1 := { m with recipe := some r, ingredients := stPtrs.2 }
    let stm2 ← m1.scaleServingsP stPtrs.1 m1.servings
    .ok (stm2.1, updateCostP stm2.1 stm2.2)

end MealP

/-!
Step-ordering invariants.  `stepOrders` lists the `order` fields of a step
list; `ContiguousUpTo os n` says the multiset of orders is exactly
`{1, ..., n}` (duplicate-free, all values in `1..n`, and each of `1..n`
present); `OrdersOK` is the weaker invariant (duplicate-free and positive)
that the step operations maintain unconditionally.
-/

/-- The list of step orders, in list order. -/
def stepOrders (l : List Step) : List Int := l.map Step.order

/-- The multiset of `os` is exactly `{1, ..., n}`. -/
def ContiguousUpTo (os : List Int) (n : Nat) : Prop :=
  os.Nodup ∧ (∀ x ∈ os, 1 ≤ x ∧ x ≤ (n : Int)) ∧
    ∀ j ∈ List.range n, ((j : Int) + 1) ∈ os

instance (os : List Int) (n : Nat) : Decidable (ContiguousUpTo os n) := by
  unfold ContiguousUpTo; infer_instance

/-- Step orders are duplicate-free and positive. -/
def Recipe.OrdersOK (r : Recipe) : Prop :=
  (stepOrders r.steps).Nodup ∧ ∀ x ∈ stepOrders r.steps, 1 ≤ x

instance (r : Recipe) : Decidable (Recipe.OrdersOK r) := by
  unfold Recipe.OrdersOK; infer_instance

/-- The multiset of step orders is exactly `{1, ..., N}`. -/
def Recipe.StepOrdersContiguous (r : Recipe) : Prop :=
  ContiguousUpTo (stepOrders r.steps) r.steps.length

instance (r : Recipe) : Decidable (Recipe.StepOrdersContiguous r) := by
  unfold Recipe.StepOrdersContiguous; infer_instance

/-- One call in a step-mutation sequence. -/
inductive StepOp where
  | add (s : Step)
  | remove (order : Int)
  | reorder (oldOrder newOrder : Int)
deriving DecidableEq, Repr

/-- Apply one call; a call that throws `InvalidArgument` leaves the recipe
unchanged (in the source every check precedes the first mutation). -/
def applyStepOp (r : Recipe) : StepOp → Recipe
  | .add s => match r.addStep s with
    | .ok r2 => r2
    | .error _ => r
  | .remove o => r.removeStep o
  | .reorder o n => match r.reorderStep o n with
    | .ok r2 => r2
    | .error _ => r

/-- Apply a finite sequence of `addStep`/`removeStep`/`reorderStep` calls. -/
def runStepOps (r : Recipe) (ops : List StepOp) : Recipe :=
  ops.foldl applyStepOp r

/-- A call is in range for the current state: an added order is at most one
past the current step count, and a reorder target is at most the current step
count.  (Out-of-range calls succeed in the source but create order gaps.) -/
def InRangeOp (r : Recipe) : StepOp → Prop
  | .add s => s.order ≤ (r.steps.length : Int) + 1
  | .remove _ => True
  | .reorder _ n => n ≤ (r.steps.length : Int)

instance (r : Recipe) (op : StepOp) : Decidable (InRangeOp r op) := by
  cases op <;> (unfold InRangeOp; infer_instance)

/-- Every call of the sequence is in range at the state where it runs. -/
def InRangeSeq : Recipe → List StepOp → Prop
  | _, [] => True
  | r, op :: ops => InRangeOp r op ∧ InRangeSeq (applyStepOp r op) ops

instance : (r : Recipe) → (ops : List StepOp) → Decidable (InRangeSeq r ops)
  | _, [] => by unfold InRangeSeq; infer_instance
  | r, op :: ops =>
    have := instDecidableInRangeSeq (applyStepOp r op) ops
    by unfold InRangeSeq; infer_instance

/-! Basic facts about `sortSteps` and `stepOrders`. -/

theorem sortSteps_perm (l : List Step) : (sortSteps l).Perm l :=
  List.perm_insertionSort _ l

theorem sortSteps_sorted (l : List Step) : List.Sorted stepLE (sortSteps l) :=
  List.sorted_insertionSort _ l

theorem sortSteps_eq_of_sorted {l : List Step} (h : List.Sorted stepLE l) :
    sortSteps l = l :=
  h.insertionSort_eq

theorem stepOrders_append (l l2 : List Step) :
    stepOrders (l ++ l2) = stepOrders l ++ stepOrders l2 :=
  List.map_append _ l l2

theorem stepOrders_perm_of_perm {l l2 : List Step} (h : l.Perm l2) :
    (stepOrders l).Perm (stepOrders l2) :=
  h.map _

theorem mem_stepOrders {x : Int} {l : List Step} :
    x ∈ stepOrders l ↔ ∃ s ∈ l, s.order = x := by
  simp [stepOrders]

theorem any_order_beq {l : List Step} {k : Int} :
    (l.any (fun e => e.order == k)) = true ↔ k ∈ stepOrders l := by
  simp [stepOrders]

theorem length_stepOrders (l : List Step) :
    (stepOrders l).length = l.length :=
  List.length_map l _

/-! The effect of the step-level shifts on the order lists. -/

/-- The `shiftStep` at the level of orders. -/
def shiftFn (k o : Int) : Int := if k ≤ o then o + 1 else o

/-- The `reorderShift` at the level of orders. -/
def reorderFn (oldO newO o : Int) : Int :=
  if oldO < newO then (if oldO < o ∧ o ≤ newO then o - 1 else o)
  else (if newO ≤ o ∧ o < oldO then o + 1 else o)

theorem stepOrders_map_of_order_eq {f : Step → Step} {g : Int → Int}
    (h : ∀ e, (f e).order = g e.order) (l : List Step) :
    stepOrders (l.map f) = (stepOrders l).map g := by
  induction l with
  | nil => rfl
  | cons s rest ih =>
    simp only [List.map_cons, stepOrders, List.map] at ih ⊢
    rw [h s]
    exact congrArg _ ih

theorem shiftStep_order (k : Int) (e : Step) :
    (Recipe.shiftStep k e).order = shiftFn k e.order := by
  unfold Recipe.shiftStep shiftFn
  by_cases h : k ≤ e.order <;> simp [h]

theorem reorderShift_order (oldO newO : Int) (e : Step) :
    (Recipe.reorderShift oldO newO e).order = reorderFn oldO newO e.order := by
  unfold Recipe.reorderShift reorderFn
  by_cases h : oldO < newO
  · by_cases h2 : oldO < e.order ∧ e.order ≤ newO <;> simp [h, h2]
  · by_cases h2 : newO ≤ e.order ∧ e.order < oldO <;> simp [h, h2]

theorem stepOrders_eraseP (l : List Step) (k : Int) :
    stepOrders (l.eraseP (fun s => s.order == k))
      = (stepOrders l).eraseP (fun o => o == k) := by
  induction l with
  | nil => rfl
  | cons s rest ih =>
    by_cases h : s.order = k
    · simp [List.eraseP_cons, stepOrders, h]
    · simp only [List.eraseP_cons, stepOrders, List.map] at ih ⊢
      have hb : (s.order == k) = false := by simp [h]
      rw [hb]
      simp only [cond_false]
      exact congrArg _ ih

/-! Facts about `eraseP (· == k)` on duplicate-free integer lists. -/

theorem intErase_nodup {os : List Int} (k : Int) (h : os.Nodup) :
    (os.eraseP (fun o => o == k)).Nodup :=
  (List.eraseP_sublist os).nodup h

theorem mem_intErase_of_nodup {os : List Int} {k : Int} (h : os.Nodup)
    (x : Int) : x ∈ os.eraseP (fun o => o == k) ↔ x ∈ os ∧ x ≠ k := by
  induction os with
  | nil => simp
  | cons a rest ih =>
    rw [List.nodup_cons] at h
    by_cases ha : a = k
    · subst ha
      simp only [List.eraseP_cons, beq_self_eq_true, cond_true]
      constructor
      · intro hx
        exact ⟨List.mem_cons_of_mem _ hx, fun hxa => h.1 (hxa ▸ hx)⟩
      · rintro ⟨hx, hxa⟩
        rcases List.mem_cons.mp hx with rfl | hx
        · exact absurd rfl hxa
        · exact hx
    · have hb : (a == k) = false := by simp [ha]
      simp only [List.eraseP_cons, hb, cond_false, List.mem_cons]
      rw [ih h.2]
      constructor
      · rintro (rfl | ⟨hx, hxk⟩)
        · exact ⟨Or.inl rfl, ha⟩
        · exact ⟨Or.inr hx, hxk⟩
      · rintro ⟨rfl | hx, hxk⟩
        · exact Or.inl rfl
        · exact Or.inr ⟨hx, hxk⟩

theorem length_intErase_of_mem {os : List Int} {k : Int} (h : k ∈ os) :
    (os.eraseP (fun o => o == k)).length + 1 = os.length := by
  induction os with
  | nil => cases h
  | cons a rest ih =>
    by_cases ha : a = k
    · simp [List.eraseP_cons, ha]
    · have hk : k ∈ rest := by
        rcases List.mem_cons.mp h with rfl | hk
        · exact absurd rfl ha
        · exact hk
      have hb : (a == k) = false := by simp [ha]
      simp only [List.eraseP_cons, hb, cond_false, List.length_cons]
      rw [← ih hk]

/-! Characterizations of the three step operations. -/

theorem addStep_err {r : Recipe} {s : Step} (h : s.order ≤ 0) :
    r.addStep s = .error .invalidArgument := by
  simp [Recipe.addStep, h]

theorem addStep_ok_occupied {r : Recipe} {s : Step} (h1 : ¬ s.order ≤ 0)
    (h2 : s.order ∈ stepOrders r.steps) :
    r.addStep s =
      .ok { r with steps := sortSteps (r.steps.map (Recipe.shiftStep s.order) ++ [s]) } := by
  have hb : (r.steps.any (fun e => e.order == s.order)) = true :=
    any_order_beq.mpr h2
  simp [Recipe.addStep, h1, hb]

theorem addStep_ok_fresh {r : Recipe} {s : Step} (h1 : ¬ s.order ≤ 0)
    (h2 : s.order ∉ stepOrders r.steps) :
    r.addStep s = .ok { r with steps := sortSteps (r.steps ++ [s]) } := by
  have hb : (r.steps.any (fun e => e.order == s.order)) = false := by
    rw [← Bool.not_eq_true]
    exact fun hc => h2 (any_order_beq.mp hc)
  simp [Recipe.addStep, h1, hb]

theorem removeStep_found {r : Recipe} {k : Int} (h : k ∈ stepOrders r.steps) :
    r.removeStep k =
      { r with steps :=
          Recipe.renumberFrom 1 (r.steps.eraseP (fun s => s.order == k)) } := by
  have hb : (r.steps.any (fun s => s.order == k)) = true := any_order_beq.mpr h
  simp [Recipe.removeStep, hb]

theorem removeStep_notfound {r : Recipe} {k : Int}
    (h : k ∉ stepOrders r.steps) : r.removeStep k = r := by
  have hb : (r.steps.any (fun s => s.order == k)) = false := by
    rw [← Bool.not_eq_true]
    exact fun hc => h (any_order_beq.mp hc)
  simp [Recipe.removeStep, hb]

theorem reorderStep_err_nonpos {r : Recipe} {oldO newO : Int}
    (h : oldO ≤ 0 ∨ newO ≤ 0) :
    r.reorderStep oldO newO = .error .invalidArgument := by
  simp [Recipe.reorderStep, h]

theorem reorderStep_err_missing {r : Recipe} {oldO newO : Int}
    (h1 : ¬ (oldO ≤ 0 ∨ newO ≤ 0)) (h2 : oldO ∉ stepOrders r.steps) :
    r.reorderStep oldO newO = .error .invalidArgument := by
  have hf : r.steps.find? (fun s => s.order == oldO) = none := by
    rw [List.find?_eq_none]
    intro s hs hc
    exact h2 (mem_stepOrders.mpr ⟨s, hs, by simpa using hc⟩)
  simp [Recipe.reorderStep, h1, hf]

theorem reorderStep_ok {r : Recipe} {oldO newO : Int} {st : Step}
    (h1 : ¬ (oldO ≤ 0 ∨ newO ≤ 0))
    (h2 : r.steps.find? (fun s => s.order == oldO) = some st) :
    r.reorderStep oldO newO =
      .ok { r with
            steps := sortSteps
              ((r.steps.eraseP (fun s => s.order == oldO)).map
                  (Recipe.reorderShift oldO newO)
                ++ [{ st with order := newO }]) } := by
  simp [Recipe.reorderStep, h1, h2]

theorem find?_order_spec {l : List Step} {k : Int} {st : Step}
    (h : l.find? (fun s => s.order == k) = some st) :
    st ∈ l ∧ st.order = k :=
  ⟨List.mem_of_find?_eq_some h, by simpa using List.find?_some h⟩

/-! Renumbering facts (for `removeStep`). -/

theorem length_renumberFrom (n : Int) (l : List Step) :
    (Recipe.renumberFrom n l).length = l.length := by
  induction l generalizing n with
  | nil => rfl
  | cons s rest ih =>
    simp [Recipe.renumberFrom, ih]

theorem mem_stepOrders_renumberFrom (n : Int) (l : List Step) (x : Int) :
    x ∈ stepOrders (Recipe.renumberFrom n l) ↔
      n ≤ x ∧ x < n + (l.length : Int) := by
  induction l generalizing n with
  | nil => simp [Recipe.renumberFrom, stepOrders]
  | cons s rest ih =>
    have h2 := ih (n + 1)
    simp only [Recipe.renumberFrom, stepOrders, List.map_cons, List.mem_cons,
      List.length_cons] at h2 ⊢
    rw [h2]
    push_cast
    omega

theorem nodup_stepOrders_renumberFrom (n : Int) (l : List Step) :
    (stepOrders (Recipe.renumberFrom n l)).Nodup := by
  induction l generalizing n with
  | nil => simp [Recipe.renumberFrom, stepOrders]
  | cons s rest ih =>
    simp only [Recipe.renumberFrom, stepOrders, List.map, List.nodup_cons]
    refine ⟨fun hmem => ?_, ih (n + 1)⟩
    have := (mem_stepOrders_renumberFrom (n + 1) rest n).mp hmem
    omega

/-! Order-level preservation lemmas. -/

theorem nodup_append_singleton {os : List Int} {k : Int} (h : os.Nodup)
    (hk : k ∉ os) : (os ++ [k]).Nodup := by
  rw [List.nodup_append]
  refine ⟨h, List.nodup_singleton k, ?_⟩
  intro a ha hb
  rw [List.mem_singleton] at hb
  exact hk (hb ▸ ha)

theorem shiftFn_injective (k : Int) : Function.Injective (shiftFn k) := by
  intro a b h
  unfold shiftFn at h
  split_ifs at h <;> omega

theorem shiftFn_ne (k o : Int) : shiftFn k o ≠ k := by
  unfold shiftFn
  split_ifs <;> omega

theorem not_mem_map_shiftFn (k : Int) (os : List Int) :
    k ∉ os.map (shiftFn k) := by
  rw [List.mem_map]
  rintro ⟨o, -, h⟩
  exact shiftFn_ne k o h

theorem ContiguousUpTo.mem_of_le {os : List Int} {n : Nat}
    (h : ContiguousUpTo os n) {y : Int} (h1 : 1 ≤ y) (h2 : y ≤ (n : Int)) :
    y ∈ os := by
  obtain ⟨-, -, hp⟩ := h
  have hy : (y - 1).toNat ∈ List.range n := by
    rw [List.mem_range]
    omega
  have hmem := hp _ hy
  have hc : (((y - 1).toNat : Int)) + 1 = y := by omega
  rwa [hc] at hmem

theorem ContiguousUpTo.perm {os os2 : List Int} {n : Nat}
    (h : ContiguousUpTo os n) (hp : os.Perm os2) : ContiguousUpTo os2 n := by
  obtain ⟨hnd, hb, hpr⟩ := h
  exact ⟨hp.nodup_iff.mp hnd, fun x hx => hb x (hp.mem_iff.mpr hx),
    fun j hj => hp.mem_iff.mp (hpr j hj)⟩

theorem contiguous_add_occupied {os : List Int} {n : Nat} {k : Int}
    (h : ContiguousUpTo os n) (hk1 : 1 ≤ k) (hk2 : k ≤ (n : Int)) :
    ContiguousUpTo ((os.map (shiftFn k)) ++ [k]) (n + 1) := by
  have hnd := h.1
  have hbound := h.2.1
  refine ⟨nodup_append_singleton (hnd.map (shiftFn_injective k))
    (not_mem_map_shiftFn k os), ?_, ?_⟩
  · intro x hx
    rcases List.mem_append.mp hx with hx | hx
    · obtain ⟨o, ho, rfl⟩ := List.mem_map.mp hx
      have := hbound o ho
      unfold shiftFn
      split_ifs <;> push_cast <;> omega
    · rw [List.mem_singleton] at hx
      subst hx
      push_cast
      omega
  · intro j hj
    rw [List.mem_range] at hj
    set x : Int := (j : Int) + 1 with hxdef
    have hx1 : 1 ≤ x := by omega
    have hx2 : x ≤ (n : Int) + 1 := by omega
    rw [List.mem_append]
    by_cases hxk : x = k
    · right
      simp [hxk]
    · left
      rw [List.mem_map]
      by_cases hlt : x < k
      · refine ⟨x, h.mem_of_le hx1 (by omega), ?_⟩
        unfold shiftFn
        rw [if_neg (by omega)]
      · refine ⟨x - 1, h.mem_of_le (by omega) (by omega), ?_⟩
        unfold shiftFn
        rw [if_pos (by omega)]
        omega

theorem contiguous_add_fresh {os : List Int} {n : Nat} {k : Int}
    (h : ContiguousUpTo os n) (hk : k = (n : Int) + 1) :
    ContiguousUpTo (os ++ [k]) (n + 1) := by
  subst hk
  obtain ⟨hnd, hbound, hpr⟩ := h
  have h2 : ContiguousUpTo os n := ⟨hnd, hbound, hpr⟩
  have hnotmem : ((n : Int) + 1) ∉ os := fun hc => by
    have := hbound _ hc
    omega
  refine ⟨nodup_append_singleton hnd hnotmem, ?_, ?_⟩
  · intro x hx
    rcases List.mem_append.mp hx with hx | hx
    · have := hbound x hx
      push_cast
      omega
    · rw [List.mem_singleton] at hx
      subst hx
      push_cast
      omega
  · intro j hj
    rw [List.mem_range] at hj
    rw [List.mem_append]
    by_cases hje : j = n
    · right
      simp [hje]
    · left
      exact h2.mem_of_le (by omega) (by omega)

theorem reorderFn_injOn {l : List Int} {oldO newO : Int} (hold : oldO ∉ l) :
    ∀ a ∈ l, ∀ b ∈ l, reorderFn oldO newO a = reorderFn oldO newO b → a = b := by
  intro a ha b hb h
  have ha2 : a ≠ oldO := fun hc => hold (hc ▸ ha)
  have hb2 : b ≠ oldO := fun hc => hold (hc ▸ hb)
  unfold reorderFn at h
  split_ifs at h <;> omega

theorem reorderFn_ne_new {oldO newO a : Int} (ha : a ≠ oldO) :
    reorderFn oldO newO a ≠ newO := by
  unfold reorderFn
  split_ifs <;> omega

theorem nodup_reorder {l : List Int} {oldO newO : Int} (hnd : l.Nodup)
    (hold : oldO ∉ l) :
    ((l.map (reorderFn oldO newO)) ++ [newO]).Nodup := by
  refine nodup_append_singleton (hnd.map_on (reorderFn_injOn hold)) ?_
  rw [List.mem_map]
  rintro ⟨a, ha, hc⟩
  refine reorderFn_ne_new ?_ hc
  intro hc2
  rw [hc2] at ha
  exact hold ha

theorem contiguous_reorder {os : List Int} {n : Nat} {oldO newO : Int}
    (h : ContiguousUpTo os n) (holdmem : oldO ∈ os)
    (hnew1 : 1 ≤ newO) (hnew2 : newO ≤ (n : Int)) :
    ContiguousUpTo
      (((os.eraseP (fun o => o == oldO)).map (reorderFn oldO newO)) ++ [newO])
      n := by
  have hnd := h.1
  have hbound := h.2.1
  have hold1 : 1 ≤ oldO := (hbound _ holdmem).1
  have hold2 : oldO ≤ (n : Int) := (hbound _ holdmem).2
  have hermem := @mem_intErase_of_nodup os oldO hnd
  have hernd : (os.eraseP (fun o => o == oldO)).Nodup := intErase_nodup _ hnd
  have holdnotmem : oldO ∉ os.eraseP (fun o => o == oldO) := fun hc =>
    ((hermem oldO).mp hc).2 rfl
  refine ⟨nodup_reorder hernd holdnotmem, ?_, ?_⟩
  · intro x hx
    rcases List.mem_append.mp hx with hx | hx
    · obtain ⟨o, ho, rfl⟩ := List.mem_map.mp hx
      obtain ⟨ho2, hone⟩ := (hermem o).mp ho
      have := hbound o ho2
      unfold reorderFn
      split_ifs <;> omega
    · rw [List.mem_singleton] at hx
      omega
  · intro j hj
    rw [List.mem_range] at hj
    set y : Int := (j : Int) + 1 with hydef
    have hy1 : 1 ≤ y := by omega
    have hy2 : y ≤ (n : Int) := by omega
    rw [List.mem_append]
    by_cases hyn : y = newO
    · right
      simp [hyn]
    · left
      rw [List.mem_map]
      by_cases hdir : oldO < newO
      · by_cases hband : oldO ≤ y ∧ y < newO
        · refine ⟨y + 1, (hermem (y + 1)).mpr
            ⟨h.mem_of_le (by omega) (by omega), by omega⟩, ?_⟩
          unfold reorderFn
          rw [if_pos hdir, if_pos (by omega)]
          omega
        · refine ⟨y, (hermem y).mpr
            ⟨h.mem_of_le hy1 hy2, by omega⟩, ?_⟩
          unfold reorderFn
          rw [if_pos hdir, if_neg (by omega)]
      · by_cases hband : newO < y ∧ y ≤ oldO
        · refine ⟨y - 1, (hermem (y - 1)).mpr
            ⟨h.mem_of_le (by omega) (by omega), by omega⟩, ?_⟩
          unfold reorderFn
          rw [if_neg hdir, if_pos (by omega)]
          omega
        · refine ⟨y, (hermem y).mpr
            ⟨h.mem_of_le hy1 hy2, by omega⟩, ?_⟩
          unfold reorderFn
          rw [if_neg hdir, if_neg (by omega)]

/-! Recipe-level preservation of the order invariants. -/

theorem stepOrders_singleton (s : Step) : stepOrders [s] = [s.order] := rfl

theorem ordersOK_of_perm {os2 : List Int} {r : Recipe}
    (hp : (stepOrders r.steps).Perm os2) (hnd : os2.Nodup)
    (hb : ∀ x ∈ os2, 1 ≤ x) : r.OrdersOK :=
  ⟨hp.nodup_iff.mpr hnd, fun x hx => hb x (hp.mem_iff.mp hx)⟩

theorem shiftFn_pos {k o : Int} (h : 1 ≤ o) : 1 ≤ shiftFn k o := by
  unfold shiftFn
  split_ifs <;> omega

theorem reorderFn_pos {oldO newO o : Int} (h : 1 ≤ o) (hold : 1 ≤ oldO) :
    1 ≤ reorderFn oldO newO o := by
  unfold reorderFn
  split_ifs <;> omega

theorem ordersOK_addStep {r r2 : Recipe} {s : Step} (h : r.OrdersOK)
    (hok : r.addStep s = .ok r2) : r2.OrdersOK := by
  by_cases h0 : s.order ≤ 0
  · rw [addStep_err h0] at hok
    cases hok
  · by_cases hocc : s.order ∈ stepOrders r.steps
    · rw [addStep_ok_occupied h0 hocc] at hok
      injection hok with hok
      subst hok
      have hp := stepOrders_perm_of_perm
        (sortSteps_perm (r.steps.map (Recipe.shiftStep s.order) ++ [s]))
      rw [stepOrders_append, stepOrders_singleton,
        stepOrders_map_of_order_eq (shiftStep_order s.order)] at hp
      refine ordersOK_of_perm hp
        (nodup_append_singleton (h.1.map (shiftFn_injective s.order))
          (not_mem_map_shiftFn s.order _)) ?_
      intro x hx
      rcases List.mem_append.mp hx with hx | hx
      · obtain ⟨o, ho, rfl⟩ := List.mem_map.mp hx
        exact shiftFn_pos (h.2 o ho)
      · rw [List.mem_singleton] at hx
        omega
    · rw [addStep_ok_fresh h0 hocc] at hok
      injection hok with hok
      subst hok
      have hp := stepOrders_perm_of_perm (sortSteps_perm (r.steps ++ [s]))
      rw [stepOrders_append, stepOrders_singleton] at hp
      refine ordersOK_of_perm hp (nodup_append_singleton h.1 hocc) ?_
      intro x hx
      rcases List.mem_append.mp hx with hx | hx
      · exact h.2 x hx
      · rw [List.mem_singleton] at hx
        omega

theorem ordersOK_removeStep {r : Recipe} (h : r.OrdersOK) (k : Int) :
    (r.removeStep k).OrdersOK := by
  by_cases hmem : k ∈ stepOrders r.steps
  · rw [removeStep_found hmem]
    refine ⟨nodup_stepOrders_renumberFrom 1 _, fun x hx => ?_⟩
    have := (mem_stepOrders_renumberFrom 1 _ x).mp hx
    omega
  · rw [removeStep_notfound hmem]
    exact h

theorem ordersOK_reorderStep {r r2 : Recipe} {oldO newO : Int}
    (h : r.OrdersOK) (hok : r.reorderStep oldO newO = .ok r2) :
    r2.OrdersOK := by
  by_cases h0 : oldO ≤ 0 ∨ newO ≤ 0
  · rw [reorderStep_err_nonpos h0] at hok
    cases hok
  · rcases hfind : r.steps.find? (fun s => s.order == oldO) with - | st
    · rw [Recipe.reorderStep, if_neg h0, hfind] at hok
      cases hok
    · rw [reorderStep_ok h0 hfind] at hok
      injection hok with hok
      subst hok
      have hp := stepOrders_perm_of_perm (sortSteps_perm
        ((r.steps.eraseP (fun s => s.order == oldO)).map
            (Recipe.reorderShift oldO newO)
          ++ [{ st with order := newO }]))
      rw [stepOrders_append, stepOrders_singleton,
        stepOrders_map_of_order_eq (reorderShift_order oldO newO),
        stepOrders_eraseP] at hp
      have hermem := @mem_intErase_of_nodup (stepOrders r.steps) oldO h.1
      have holdnotmem :
          oldO ∉ (stepOrders r.steps).eraseP (fun o => o == oldO) :=
        fun hc => ((hermem oldO).mp hc).2 rfl
      refine ordersOK_of_perm hp
        (nodup_reorder (intErase_nodup _ h.1) holdnotmem) ?_
      intro x hx
      rcases List.mem_append.mp hx with hx | hx
      · obtain ⟨o, ho, rfl⟩ := List.mem_map.mp hx
        exact reorderFn_pos (h.2 o ((hermem o).mp ho).1) (by omega)
      · simp only [List.mem_singleton] at hx
        omega

theorem applyStepOp_ordersOK {r : Recipe} (h : r.OrdersOK) (op : StepOp) :
    (applyStepOp r op).OrdersOK := by
  cases op with
  | add s =>
    rcases hres : r.addStep s with e | r2
    · simpa [applyStepOp, hres] using h
    · simpa [applyStepOp, hres] using ordersOK_addStep h hres
  | remove k =>
    exact ordersOK_removeStep h k
  | reorder oldO newO =>
    rcases hres : r.reorderStep oldO newO with e | r2
    · simpa [applyStepOp, hres] using h
    · simpa [applyStepOp, hres] using ordersOK_reorderStep h hres

theorem runStepOps_ordersOK {r : Recipe} (h : r.OrdersOK)
    (ops : List StepOp) : (runStepOps r ops).OrdersOK := by
  induction ops generalizing r with
  | nil => exact h
  | cons op rest ih => exact ih (applyStepOp_ordersOK h op)

theorem contiguous_renumber (l : List Step) :
    ContiguousUpTo (stepOrders (Recipe.renumberFrom 1 l))
      (Recipe.renumberFrom 1 l).length := by
  refine ⟨nodup_stepOrders_renumberFrom 1 l, ?_, ?_⟩
  · intro x hx
    have := (mem_stepOrders_renumberFrom 1 l x).mp hx
    rw [length_renumberFrom]
    omega
  · intro j hj
    rw [length_renumberFrom, List.mem_range] at hj
    rw [mem_stepOrders_renumberFrom]
    omega

theorem contiguous_addStep {r r2 : Recipe} {s : Step}
    (h : r.StepOrdersContiguous) (hok : r.addStep s = .ok r2)
    (hin : s.order ≤ (r.steps.length : Int) + 1) : r2.StepOrdersContiguous := by
  by_cases h0 : s.order ≤ 0
  · rw [addStep_err h0] at hok
    cases hok
  · by_cases hocc : s.order ∈ stepOrders r.steps
    · rw [addStep_ok_occupied h0 hocc] at hok
      injection hok with hok
      subst hok
      have hp := stepOrders_perm_of_perm
        (sortSteps_perm (r.steps.map (Recipe.shiftStep s.order) ++ [s]))
      rw [stepOrders_append, stepOrders_singleton,
        stepOrders_map_of_order_eq (shiftStep_order s.order)] at hp
      have hcont := (contiguous_add_occupied h (by omega)
        (h.2.1 _ hocc).2).perm hp.symm
      show ContiguousUpTo _ _
      have hlen : (sortSteps (r.steps.map (Recipe.shiftStep s.order) ++ [s])).length
          = r.steps.length + 1 := by
        rw [(sortSteps_perm _).length_eq, List.length_append, List.length_map]
        rfl
      rw [hlen]
      exact hcont
    · rw [addStep_ok_fresh h0 hocc] at hok
      injection hok with hok
      subst hok
      have hp := stepOrders_perm_of_perm (sortSteps_perm (r.steps ++ [s]))
      rw [stepOrders_append, stepOrders_singleton] at hp
      have hfr : s.order = (r.steps.length : Int) + 1 := by
        by_contra hne
        exact hocc (ContiguousUpTo.mem_of_le h (by omega) (by omega))
      have hcont := (contiguous_add_fresh h hfr).perm hp.symm
      show ContiguousUpTo _ _
      have hlen : (sortSteps (r.steps ++ [s])).length = r.steps.length + 1 := by
        rw [(sortSteps_perm _).length_eq, List.length_append]
        rfl
      rw [hlen]
      exact hcont

theorem contiguous_removeStep {r : Recipe} (h : r.StepOrdersContiguous)
    (k : Int) : (r.removeStep k).StepOrdersContiguous := by
  by_cases hmem : k ∈ stepOrders r.steps
  · rw [removeStep_found hmem]
    exact contiguous_renumber _
  · rw [removeStep_notfound hmem]
    exact h

theorem contiguous_reorderStep {r r2 : Recipe} {oldO newO : Int}
    (h : r.StepOrdersContiguous) (hok : r.reorderStep oldO newO = .ok r2)
    (hin : newO ≤ (r.steps.length : Int)) : r2.StepOrdersContiguous := by
  by_cases h0 : oldO ≤ 0 ∨ newO ≤ 0
  · rw [reorderStep_err_nonpos h0] at hok
    cases hok
  · rcases hfind : r.steps.find? (fun s => s.order == oldO) with - | st
    · rw [Recipe.reorderStep, if_neg h0, hfind] at hok
      cases hok
    · rw [reorderStep_ok h0 hfind] at hok
      injection hok with hok
      subst hok
      obtain ⟨hstmem, hstord⟩ := find?_order_spec hfind
      have holdmem : oldO ∈ stepOrders r.steps :=
        mem_stepOrders.mpr ⟨st, hstmem, hstord⟩
      have hp := stepOrders_perm_of_perm (sortSteps_perm
        ((r.steps.eraseP (fun s => s.order == oldO)).map
            (Recipe.reorderShift oldO newO)
          ++ [{ st with order := newO }]))
      rw [stepOrders_append, stepOrders_singleton,
        stepOrders_map_of_order_eq (reorderShift_order oldO newO),
        stepOrders_eraseP] at hp
      have hcont := (contiguous_reorder h holdmem (by omega) hin).perm hp.symm
      have hlen2 : ((stepOrders r.steps).eraseP (fun o => o == oldO)).length + 1
          = (stepOrders r.steps).length := length_intErase_of_mem holdmem
      rw [← stepOrders_eraseP, length_stepOrders, length_stepOrders] at hlen2
      show ContiguousUpTo _ _
      have hlen : (sortSteps
          ((r.steps.eraseP (fun s => s.order == oldO)).map
              (Recipe.reorderShift oldO newO)
            ++ [{ st with order := newO }])).length = r.steps.length := by
        rw [(sortSteps_perm _).length_eq, List.length_append, List.length_map]
        simpa using hlen2
      rw [hlen]
      exact hcont

theorem applyStepOp_contiguous {r : Recipe} (h : r.StepOrdersContiguous)
    {op : StepOp} (hin : InRangeOp r op) :
    (applyStepOp r op).StepOrdersContiguous := by
  cases op with
  | add s =>
    rcases hres : r.addStep s with e | r2
    · simpa [applyStepOp, hres] using h
    · simpa [applyStepOp, hres] using contiguous_addStep h hres hin
  | remove k =>
    exact contiguous_removeStep h k
  | reorder oldO newO =>
    rcases hres : r.reorderStep oldO newO with e | r2
    · simpa [applyStepOp, hres] using h
    · simpa [applyStepOp, hres] using contiguous_reorderStep h hres hin

theorem runStepOps_contiguous {r : Recipe} (h : r.StepOrdersContiguous)
    {ops : List StepOp} (hin : InRangeSeq r ops) :
    (runStepOps r ops).StepOrdersContiguous := by
  induction ops generalizing r with
  | nil => exact h
  | cons op rest ih =>
    exact ih (applyStepOp_contiguous h hin.1) hin.2

/-! Concrete fixtures used by witnesses and counterexamples. -/

/-- A concrete step with a given order and description. -/
def stp (o : Int) (d : String) : Step :=
  { order := o, description := d, duration := 0 }

/-- A concrete recipe whose steps occupy orders 1, 2, 3. -/
def recipe123 : Recipe :=
  { Recipe.ctorDefault "rec_fix" with
    steps := [stp 1 "a", stp 2 "b", stp 3 "c"] }

/-- C1, counterexample: starting from an empty step list, the single call
`addStep` with order 2 succeeds (no duplicate exists, so no shift happens)
and leaves the recipe with the order multiset `[2]`, which is not `{1}`:
the step orders are neither contiguous nor starting at 1. -/
theorem c1_cex_gap_after_addStep :
    stepOrders (runStepOps (Recipe.ctorDefault "rec_0")
        [StepOp.add (stp 2 "x")]).steps = [2] ∧
      ¬ (runStepOps (Recipe.ctorDefault "rec_0")
        [StepOp.add (stp 2 "x")]).StepOrdersContiguous := by
  decide

/-- C1 (amended): after any finite sequence of `addStep`/`removeStep`/
`reorderStep` calls starting from an empty step list (calls that throw leave
the recipe unchanged), the step orders are always unique and positive; they
form exactly the contiguous multiset `{1..N}` provided every `addStep` call
requests an order at most one past the step count at that call and every
`reorderStep` call requests a target order at most the step count at that
call.  (Without that in-range condition the source accepts the call and
creates a gap, as the counterexample shows.) -/
theorem c1_step_orders_unique_positive_contiguous (ops : List StepOp) :
    (runStepOps (Recipe.ctorDefault "rec_0") ops).OrdersOK ∧
      (InRangeSeq (Recipe.ctorDefault "rec_0") ops →
        (runStepOps (Recipe.ctorDefault "rec_0") ops).StepOrdersContiguous) := by
  constructor
  · exact runStepOps_ordersOK (by decide) ops
  · intro hin
    exact runStepOps_contiguous (by decide) hin

/-- C1, witness: a concrete in-range call sequence, evaluated. -/
theorem c1_step_orders_witness :
    InRangeSeq (Recipe.ctorDefault "rec_0")
        [StepOp.add (stp 1 "a"), StepOp.add (stp 1 "b"),
          StepOp.reorder 2 1, StepOp.remove 1] ∧
      ((runStepOps (Recipe.ctorDefault "rec_0")
          [StepOp.add (stp 1 "a"), StepOp.add (stp 1 "b"),
            StepOp.reorder 2 1, StepOp.remove 1]).OrdersOK ∧
        (InRangeSeq (Recipe.ctorDefault "rec_0")
            [StepOp.add (stp 1 "a"), StepOp.add (stp 1 "b"),
              StepOp.reorder 2 1, StepOp.remove 1] →
          (runStepOps (Recipe.ctorDefault "rec_0")
            [StepOp.add (stp 1 "a"), StepOp.add (stp 1 "b"),
              StepOp.reorder 2 1, StepOp.remove 1]).StepOrdersContiguous)) :=
  ⟨by decide, c1_step_orders_unique_positive_contiguous _⟩

/-- C4: `addStep` rejects a non-positive order with InvalidArgument; when the
requested order is already occupied, the result holds exactly the old steps
each shifted up by one when its order was ≥ the new order (so no step is
overwritten), together with the new step, sorted by order; the new step is
present with its requested order.  The concrete `{1..N}` scenario of the
claim is the witness instance (orders 1,2,3, insertion at order 1). -/
theorem c4_addStep_shift_before_insert (r : Recipe) (s : Step)
    (hpos : 0 < s.order) (hocc : s.order ∈ stepOrders r.steps) :
    (∀ s2 : Step, s2.order ≤ 0 → r.addStep s2 = .error .invalidArgument) ∧
      ∃ r2, r.addStep s = .ok r2 ∧
        r2.steps.Perm (r.steps.map (Recipe.shiftStep s.order) ++ [s]) ∧
        List.Sorted stepLE r2.steps ∧
        s ∈ r2.steps ∧
        (∀ e ∈ r.steps, Recipe.shiftStep s.order e ∈ r2.steps) := by
  refine ⟨fun s2 h2 => addStep_err h2, ?_⟩
  have h0 : ¬ s.order ≤ 0 := by omega
  refine ⟨_, addStep_ok_occupied h0 hocc, ?_, ?_, ?_, ?_⟩
  · exact sortSteps_perm _
  · exact sortSteps_sorted _
  · exact (sortSteps_perm _).mem_iff.mpr (List.mem_append.mpr (Or.inr (by simp)))
  · intro e he
    exact (sortSteps_perm _).mem_iff.mpr
      (List.mem_append.mpr (Or.inl (List.mem_map_of_mem _ he)))

/-- C4, witness: recipe with steps at orders 1,2,3 and a new step requesting
order 1: all three existing steps shift to 2,3,4 and the new step takes
order 1. -/
theorem c4_addStep_shift_witness :
    (0 < (stp 1 "d").order ∧ (stp 1 "d").order ∈ stepOrders recipe123.steps) ∧
      ((∀ s2 : Step, s2.order ≤ 0 →
          recipe123.addStep s2 = .error .invalidArgument) ∧
        ∃ r2, recipe123.addStep (stp 1 "d") = .ok r2 ∧
          r2.steps.Perm (recipe123.steps.map (Recipe.shiftStep 1) ++ [stp 1 "d"]) ∧
          List.Sorted stepLE r2.steps ∧
          stp 1 "d" ∈ r2.steps ∧
          (∀ e ∈ recipe123.steps, Recipe.shiftStep 1 e ∈ r2.steps)) :=
  ⟨⟨by decide, by decide⟩,
    c4_addStep_shift_before_insert recipe123 (stp 1 "d") (by decide) (by decide)⟩

/-- C5, counterexample: on the recipe with steps at orders 1,2,3 the call
`reorderStep(1, 5)` succeeds and yields orders 1,2,5 — a permutation of the
steps but with a gap (orders 3 and 4 absent, order 5 beyond the step count),
refuting the claimed "never a gap". -/
theorem c5_cex_gap_after_reorder :
    (recipe123.reorderStep 1 5).map (fun r2 => stepOrders r2.steps)
        = .ok [1, 2, 5] ∧
      (recipe123.reorderStep 1 5).map
          (fun r2 => decide r2.StepOrdersContiguous) = .ok false := by
  decide

/-- C5 (amended): `reorderStep` rejects non-positive arguments and a missing
`oldOrder` with InvalidArgument; on success the targeted step ends at
`newOrder`, every other step strictly between the two positions shifts by one
toward the vacated slot, the result is a permutation of the previous steps
with no duplicate among orders, and — provided the orders were contiguous
`{1..N}` and `newOrder ≤ N` — with no gap either.  (A `newOrder` beyond the
step count is accepted by the source and creates a gap, as the
counterexample shows.)  The claimed concrete scenario holds: on steps
`a@1, b@2, c@3`, `reorderStep(3, 1)` yields `c@1, a@2, b@3`. -/
theorem c5_reorderStep_permutation (r : Recipe) (oldO newO : Int) (st : Step)
    (h1 : 0 < oldO) (h2 : 0 < newO)
    (hfind : r.steps.find? (fun s => s.order == oldO) = some st)
    (hok : r.OrdersOK) :
    (∀ o2 n2 : Int, o2 ≤ 0 ∨ n2 ≤ 0 →
        r.reorderStep o2 n2 = .error .invalidArgument) ∧
      (∀ o2 n2 : Int, ¬ (o2 ≤ 0 ∨ n2 ≤ 0) → o2 ∉ stepOrders r.steps →
        r.reorderStep o2 n2 = .error .invalidArgument) ∧
      (recipe123.reorderStep 3 1).map (fun r2 => r2.steps)
        = .ok [stp 1 "c", stp 2 "a", stp 3 "b"] ∧
      ∃ r2, r.reorderStep oldO newO = .ok r2 ∧
        { st with order := newO } ∈ r2.steps ∧
        r2.steps.Perm
          ((r.steps.eraseP (fun s => s.order == oldO)).map
              (Recipe.reorderShift oldO newO)
            ++ [{ st with order := newO }]) ∧
        (stepOrders r2.steps).Nodup ∧
        List.Sorted stepLE r2.steps ∧
        (r.StepOrdersContiguous → newO ≤ (r.steps.length : Int) →
          r2.StepOrdersContiguous) := by
  have h0 : ¬ (oldO ≤ 0 ∨ newO ≤ 0) := by omega
  refine ⟨fun o2 n2 h => reorderStep_err_nonpos h,
    fun o2 n2 h hmiss => reorderStep_err_missing h hmiss, by decide,
    _, reorderStep_ok h0 hfind, ?_, ?_, ?_, ?_, ?_⟩
  · exact (sortSteps_perm _).mem_iff.mpr (List.mem_append.mpr (Or.inr (by simp)))
  · exact sortSteps_perm _
  · exact (ordersOK_reorderStep hok (reorderStep_ok h0 hfind)).1
  · exact sortSteps_sorted _
  · intro hcont hin
    exact contiguous_reorderStep hcont (reorderStep_ok h0 hfind) hin

/-- C5, witness: the concrete scenario of the claim, `reorderStep(3, 1)` on
steps at orders 1,2,3. -/
theorem c5_reorderStep_witness :
    (0 < (3 : Int) ∧ 0 < (1 : Int) ∧
        recipe123.steps.find? (fun s => s.order == 3) = some (stp 3 "c") ∧
        recipe123.OrdersOK) ∧
      ((∀ o2 n2 : Int, o2 ≤ 0 ∨ n2 ≤ 0 →
          recipe123.reorderStep o2 n2 = .error .invalidArgument) ∧
        (∀ o2 n2 : Int, ¬ (o2 ≤ 0 ∨ n2 ≤ 0) → o2 ∉ stepOrders recipe123.steps →
          recipe123.reorderStep o2 n2 = .error .invalidArgument) ∧
        (recipe123.reorderStep 3 1).map (fun r2 => r2.steps)
          = .ok [stp 1 "c", stp 2 "a", stp 3 "b"] ∧
        ∃ r2, recipe123.reorderStep 3 1 = .ok r2 ∧
          { stp 3 "c" with order := 1 } ∈ r2.steps ∧
          r2.steps.Perm
            ((recipe123.steps.eraseP (fun s => s.order == 3)).map
                (Recipe.reorderShift 3 1)
              ++ [{ stp 3 "c" with order := 1 }]) ∧
          (stepOrders r2.steps).Nodup ∧
          List.Sorted stepLE r2.steps ∧
          (recipe123.StepOrdersContiguous → 1 ≤ (recipe123.steps.length : Int) →
            r2.StepOrdersContiguous)) :=
  ⟨⟨by decide, by decide, by decide, by decide⟩,
    c5_reorderStep_permutation recipe123 3 1 (stp 3 "c")
      (by decide) (by decide) (by decide) (by decide)⟩

/-! Meal helper lemmas. -/

/-- The `scaleServings` called with the current serving count is a no-op (the
early-return branch). -/
theorem scaleServings_self {m : Meal} (h : ¬ m.servings ≤ 0) :
    m.scaleServings m.servings = .ok m := by
  simp [Meal.scaleServings, h]

/-- The `setRecipe` with a non-null recipe: the ingredient list is replaced by
the recipe ingredients, the internal `scaleServings(servings_)` call
early-returns (its target equals the current count), and the cost is
recomputed. -/
theorem setRecipe_some {m : Meal} {r : Recipe} (h : ¬ m.servings ≤ 0) :
    m.setRecipe (some r) =
      .ok (Meal.updateCost
        { m with recipe := some r, ingredients := r.ingredients }) := by
  have hs :
      Meal.scaleServings { m with recipe := some r, ingredients := r.ingredients }
          ({ m with recipe := some r, ingredients := r.ingredients } : Meal).servings
        = .ok { m with recipe := some r, ingredients := r.ingredients } :=
    scaleServings_self h
  simp only [Meal.setRecipe, hs]
  rfl

/-! Fixtures for the Meal claims. -/

/-- A concrete ingredient: 100 grams at unit price 1. -/
def ingC2 : Ingredient :=
  { id := "ing_c2", name := "flour", quantity := 100, unit := .gram,
    unitPrice := 1, expiryDate := 0, nutritionalInfo := [] }

/-- A concrete meal with one ingredient, consistent cost, and 1 serving. -/
def mealC2 : Meal :=
  { Meal.ctorNamed 0 "m" with ingredients := [ingC2], estimatedCost := 100 }

/-- C2 (failing input): `mealC2` has 1 serving, one ingredient of quantity
100, and cost 100; `setServings(4)` succeeds but changes the serving count
only — the ingredient quantity and the estimated cost are untouched, because
`setServings` assigns `servings_` before calling `scaleServings(servings)`,
whose equality early-return then always fires.  The claim (and the evident
intent of the dead `scaleServings` call) requires the quantity to become 400
and the cost to be recomputed. -/
theorem c2_setServings_never_scales :
    mealC2.servings = 1 ∧
      mealC2.ingredients.map Ingredient.quantity = [100] ∧
      mealC2.estimatedCost = 100 ∧
      mealC2.setServings 4 = .ok { mealC2 with servings := 4 } :=
  ⟨rfl, rfl, rfl, rfl⟩

/-- C7: for every scale factor f > 0, `scale(f)` multiplies the quantity by
f, leaves the unit price unchanged, and therefore multiplies
`calculateCost()` (= quantity × unit price) by exactly f. -/
theorem c7_scale_cost_linear (i : Ingredient) (f : ℚ) (hf : 0 < f) :
    ∃ i2, i.scale f = .ok i2 ∧
      i2.quantity = i.quantity * f ∧
      i2.unitPrice = i.unitPrice ∧
      i2.calculateCost = f * i.calculateCost := by
  have hok : i.scale f = .ok { i with quantity := i.quantity * f } := by
    unfold Ingredient.scale
    rw [if_neg (not_le.mpr hf)]
  refine ⟨_, hok, rfl, rfl, ?_⟩
  simp only [Ingredient.calculateCost]
  ring

/-- C7, witness: the 100-gram, price-1 ingredient scaled by 2. -/
theorem c7_scale_cost_witness :
    (0 : ℚ) < 2 ∧
      ∃ i2, ingC2.scale 2 = .ok i2 ∧
        i2.quantity = ingC2.quantity * 2 ∧
        i2.unitPrice = ingC2.unitPrice ∧
        i2.calculateCost = 2 * ingC2.calculateCost :=
  ⟨by norm_num, c7_scale_cost_linear ingC2 2 (by norm_num)⟩

/-- C8 (failing input): `Ingredient("")` and `Ingredient("", 1, GRAM)`
construct successfully with an empty name — no constructor validates the
name, although ingredient.hpp documents `@throws std::invalid_argument if
name is empty` for both and the spec requires names to be non-empty — while
`setName("")` does throw. -/
theorem c8_ctor_accepts_empty_name :
    (Ingredient.ctorNamed "ing_0" "").name = "" ∧
      Ingredient.ctorFull "ing_0" "" 1 .gram
        = .ok { id := "ing_0", name := "", quantity := 1, unit := .gram,
                unitPrice := 0, expiryDate := 0, nutritionalInfo := [] } ∧
      (Ingredient.ctorNamed "ing_0" "x").setName "" = .error .invalidArgument := by
  refine ⟨rfl, ?_, ?_⟩
  · unfold Ingredient.ctorFull
    rw [if_neg (by norm_num)]
  · unfold Ingredient.setName Ingredient.ctorNamed
    rw [if_pos rfl]

/-- C9: every one of the invalid mutations — non-positive servings on a Meal
or Recipe, non-positive scale target on a Meal, non-positive scale factor on
an Ingredient, null ingredient on a Meal or Recipe, step with non-positive
order — returns InvalidArgument.  In this embedding an operation either
returns the error or the new state; in the source each of these checks
precedes the first write, so on the error path the aggregate is left exactly
as it was (no partial mutation). -/
theorem c9_invalid_mutations_rejected (m : Meal) (r : Recipe) (i : Ingredient)
    (n : Int) (f : ℚ) (s : Step)
    (hn : n ≤ 0) (hf : f ≤ 0) (hs : s.order ≤ 0) :
    m.setServings n = .error .invalidArgument ∧
      m.scaleServings n = .error .invalidArgument ∧
      r.setServings n = .error .invalidArgument ∧
      i.scale f = .error .invalidArgument ∧
      m.addIngredient none = .error .invalidArgument ∧
      r.addIngredient none = .error .invalidArgument ∧
      r.addStep s = .error .invalidArgument := by
  refine ⟨?_, ?_, ?_, ?_, rfl, rfl, addStep_err hs⟩
  · simp [Meal.setServings, hn]
  · simp [Meal.scaleServings, hn]
  · simp [Recipe.setServings, hn]
  · simp [Ingredient.scale, hf]

/-- C9, witness: the invalid inputs 0 (servings), 0 (factor) and a step of
order 0, against concrete aggregates. -/
theorem c9_invalid_mutations_witness :
    ((0 : Int) ≤ 0 ∧ (0 : ℚ) ≤ 0 ∧ (stp 0 "z").order ≤ 0) ∧
      (mealC2.setServings 0 = .error .invalidArgument ∧
        mealC2.scaleServings 0 = .error .invalidArgument ∧
        recipe123.setServings 0 = .error .invalidArgument ∧
        ingC2.scale 0 = .error .invalidArgument ∧
        mealC2.addIngredient none = .error .invalidArgument ∧
        recipe123.addIngredient none = .error .invalidArgument ∧
        recipe123.addStep (stp 0 "z") = .error .invalidArgument) :=
  ⟨⟨by decide, by norm_num, by decide⟩,
    c9_invalid_mutations_rejected mealC2 recipe123 ingC2 0 0 (stp 0 "z")
      (by decide) (by norm_num) (by decide)⟩

/-- C10: `setRecipe(nullptr)` stores the null pointer and touches nothing
else — the name, type, status, planned time, ingredient list, estimated cost
and servings are all left exactly as they were; no clearing or copying of
ingredients happens (the copy block is guarded by the non-null test). -/
theorem c10_setRecipe_null_frame (m : Meal) :
    ∃ m2, m.setRecipe none = .ok m2 ∧ m2.recipe = none ∧
      m2.name = m.name ∧ m2.type = m.type ∧ m2.status = m.status ∧
      m2.plannedTime = m.plannedTime ∧ m2.ingredients = m.ingredients ∧
      m2.estimatedCost = m.estimatedCost ∧ m2.servings = m.servings :=
  ⟨{ m with recipe := none }, rfl, rfl, rfl, rfl, rfl, rfl, rfl, rfl, rfl⟩

/-! Store lemmas for the pointer-level model. -/

theorem lookup_append_left {st st2 : Store} {p : Nat} (h : p < st.length) :
    Store.lookup (st ++ st2) p = st.lookup p :=
  List.getD_append st st2 default p h

theorem lookup_set_ne {st : Store} {p q : Nat} {i : Ingredient} (h : q ≠ p) :
    Store.lookup (st.set p i) q = st.lookup q := by
  unfold Store.lookup
  rw [List.getD_eq_getElem?_getD, List.getD_eq_getElem?_getD,
    List.getElem?_set_ne (Ne.symm h)]

theorem allocCopies_fst (st : Store) (ptrs : List Nat) :
    ∃ ext : Store, (st.allocCopies ptrs).1 = st ++ ext := by
  induction ptrs generalizing st with
  | nil => exact ⟨[], by simp [Store.allocCopies]⟩
  | cons p rest ih =>
    obtain ⟨ext, hext⟩ := ih (st ++ [st.lookup p])
    refine ⟨[st.lookup p] ++ ext, ?_⟩
    simp only [Store.allocCopies, hext]
    rw [List.append_assoc]

theorem allocCopies_snd_ge (st : Store) (ptrs : List Nat) :
    ∀ q ∈ (st.allocCopies ptrs).2, st.length ≤ q := by
  induction ptrs generalizing st with
  | nil => simp [Store.allocCopies]
  | cons p rest ih =>
    intro q hq
    simp only [Store.allocCopies, List.mem_cons] at hq
    rcases hq with rfl | hq
    · exact le_refl _
    · have h2 := ih (st ++ [st.lookup p]) q hq
      rw [List.length_append] at h2
      simp only [List.length_singleton] at h2
      omega

theorem allocCopies_values {st : Store} {ptrs : List Nat}
    (h : ∀ p ∈ ptrs, p < st.length) :
    (st.allocCopies ptrs).2.map (Store.lookup (st.allocCopies ptrs).1)
      = ptrs.map st.lookup := by
  induction ptrs generalizing st with
  | nil => rfl
  | cons p rest ih =>
    simp only [Store.allocCopies, List.map_cons]
    obtain ⟨ext, hext⟩ := allocCopies_fst (st ++ [st.lookup p]) rest
    have hhead :
        Store.lookup ((st ++ [st.lookup p]).allocCopies rest).1 st.length
          = st.lookup p := by
      rw [hext, List.append_assoc]
      show List.getD (st ++ ([st.lookup p] ++ ext)) st.length default
        = st.lookup p
      rw [List.getD_append_right st ([st.lookup p] ++ ext) default st.length
          (le_refl _),
        Nat.sub_self, List.singleton_append, List.getD_cons_zero]
    have htail :
        ((st ++ [st.lookup p]).allocCopies rest).2.map
            (Store.lookup ((st ++ [st.lookup p]).allocCopies rest).1)
          = rest.map (Store.lookup (st ++ [st.lookup p])) := by
      refine ih ?_
      intro q hq
      rw [List.length_append]
      have := h q (List.mem_cons_of_mem _ hq)
      simp only [List.length_singleton]
      omega
    rw [hhead, htail]
    congr 1
    refine List.map_congr_left ?_
    intro q hq
    exact lookup_append_left (h q (List.mem_cons_of_mem _ hq))

/-- The `scaleServings`, pointer view, called with the current serving count:
the early-return branch fires. -/
theorem scaleServingsP_self {st : Store} {m : MealP} (h : ¬ m.servings ≤ 0) :
    m.scaleServingsP st m.servings = .ok (st, m) := by
  simp [MealP.scaleServingsP, h]

/-- The `setRecipe`, pointer view, with a non-null recipe: fresh copies are
allocated, the internal rescale call is the identity, and the cost is
recomputed over the copies. -/
theorem setRecipeP_some {st : Store} {m : MealP} {r : RecipeP}
    (h : ¬ m.servings ≤ 0) :
    MealP.setRecipeP st m (some r) =
      .ok ((st.allocCopies r.ingredients).1,
        MealP.updateCostP (st.allocCopies r.ingredients).1
          { m with recipe := some r,
                   ingredients := (st.allocCopies r.ingredients).2 }) := by
  have hs := @scaleServingsP_self (st.allocCopies r.ingredients).1
    { m with recipe := some r,
             ingredients := (st.allocCopies r.ingredients).2 } h
  simp only [MealP.setRecipeP, hs]
  rfl

/-- C6: `setRecipe` with a non-null recipe replaces the meal ingredient list
with pointers to freshly allocated copies of the recipe ingredients — equal
in value to the recipe ingredients (the internal
`scaleServings(currentServings)` rescale is the identity ratio), disjoint
from every pointer the recipe holds, so that writing through any recipe
ingredient pointer afterwards leaves the meal copies unchanged — and
recomputes the estimated cost over the copies. -/
theorem c6_setRecipe_copies_independent (st : Store) (m : MealP) (r : RecipeP)
    (hserv : 0 < m.servings) (hvalid : ∀ p ∈ r.ingredients, p < st.length) :
    ∃ st2 m2, MealP.setRecipeP st m (some r) = .ok (st2, m2) ∧
      m2.recipe = some r ∧
      m2.servings = m.servings ∧
      m2.ingredients.map (Store.lookup st2) = r.ingredients.map st.lookup ∧
      (∀ q ∈ m2.ingredients, ∀ p ∈ r.ingredients, q ≠ p) ∧
      (∀ p ∈ r.ingredients, ∀ i2 : Ingredient,
        m2.ingredients.map (Store.lookup (st2.set p i2))
          = m2.ingredients.map (Store.lookup st2)) ∧
      m2.estimatedCost
        = (m2.ingredients.map (fun q => (Store.lookup st2 q).calculateCost)).sum := by
  have h0 : ¬ m.servings ≤ 0 := by omega
  refine ⟨(st.allocCopies r.ingredients).1, _, setRecipeP_some h0,
    rfl, rfl, ?_, ?_, ?_, rfl⟩
  · exact allocCopies_values hvalid
  · intro q hq p hp
    have h1 := allocCopies_snd_ge st r.ingredients q hq
    have h2 := hvalid p hp
    omega
  · intro p hp i2
    refine List.map_congr_left ?_
    intro q hq
    refine lookup_set_ne ?_
    have h1 := allocCopies_snd_ge st r.ingredients q hq
    have h2 := hvalid p hp
    omega

/-- The fixtures for the C6 witness: a one-cell store holding `ingC2`, a
recipe pointing at cell 0, and a fresh meal. -/
def storeC6 : Store := [ingC2]

/-- Pointer-view recipe holding cell 0. -/
def recipeC6 : RecipeP := { servings := 1, ingredients := [0] }

/-- Pointer-view meal with no ingredients and 1 serving. -/
def mealC6 : MealP :=
  { name := "m", type := .breakfast, status := .planned, plannedTime := 0,
    recipe := none, ingredients := [], estimatedCost := 0, servings := 1 }

/-- C6, witness: the concrete one-ingredient instance. -/
theorem c6_setRecipe_copies_witness :
    (0 < mealC6.servings ∧ ∀ p ∈ recipeC6.ingredients, p < storeC6.length) ∧
      ∃ st2 m2, MealP.setRecipeP storeC6 mealC6 (some recipeC6) = .ok (st2, m2) ∧
        m2.recipe = some recipeC6 ∧
        m2.servings = mealC6.servings ∧
        m2.ingredients.map (Store.lookup st2)
          = recipeC6.ingredients.map storeC6.lookup ∧
        (∀ q ∈ m2.ingredients, ∀ p ∈ recipeC6.ingredients, q ≠ p) ∧
        (∀ p ∈ recipeC6.ingredients, ∀ i2 : Ingredient,
          m2.ingredients.map (Store.lookup (st2.set p i2))
            = m2.ingredients.map (Store.lookup st2)) ∧
        m2.estimatedCost
          = (m2.ingredients.map (fun q => (Store.lookup st2 q).calculateCost)).sum :=
  ⟨⟨by decide, by decide⟩,
    c6_setRecipe_copies_independent storeC6 mealC6 recipeC6
      (by decide) (by decide)⟩

/-! Serialization round trips. -/

theorem except_bind_ok {α β : Type} (a : α) (f : α → Except Err β) :
    (Except.ok a >>= f) = f a := rfl

theorem unit_ofInt_toInt (u : Ingredient.Unit) :
    Ingredient.Unit.ofInt u.toInt = u := by
  cases u <;> rfl

theorem difficulty_ofInt_toInt (d : Difficulty) :
    Difficulty.ofInt d.toInt = d := by
  cases d <;> rfl

theorem mealType_ofInt_toInt (t : MealType) : MealType.ofInt t.toInt = t := by
  cases t <;> rfl

theorem mealStatus_ofInt_toInt (s : MealStatus) :
    MealStatus.ofInt s.toInt = s := by
  cases s <;> rfl

/-- Validity conditions under which an `Ingredient` reachable through the
mutating interface serializes and deserializes exactly: non-negative
quantity, price and nutrient values, and a `std::map`-shaped (key-sorted)
nutrient list. -/
def Ingredient.SerWF (i : Ingredient) : Prop :=
  0 ≤ i.quantity ∧ 0 ≤ i.unitPrice ∧ (∀ kv ∈ i.nutritionalInfo, 0 ≤ kv.2) ∧
    i.nutritionalInfo.WF

instance (i : Ingredient) : Decidable (Ingredient.SerWF i) := by
  unfold Ingredient.SerWF; infer_instance

theorem upsert_append {acc : StrMap} {k : String} (v : ℚ)
    (h : ∀ kv ∈ acc, kv.1 < k) :
    StrMap.upsert k v acc = acc ++ [(k, v)] := by
  induction acc with
  | nil => rfl
  | cons kv2 rest ih =>
    have hk2 : kv2.1 < k := h kv2 (List.mem_cons_self _ _)
    obtain ⟨k2, v2⟩ := kv2
    simp only [StrMap.upsert]
    rw [if_neg (lt_asymm hk2), if_neg (ne_of_gt hk2),
      ih (fun kv hkv => h kv (List.mem_cons_of_mem _ hkv))]
    rfl

theorem foldlM_addNutritionalInfo {i : Ingredient} {m : StrMap}
    (hvals : ∀ kv ∈ m, 0 ≤ kv.2) (hWF : m.WF)
    (hsep : ∀ kv ∈ i.nutritionalInfo, ∀ kv2 ∈ m, kv.1 < kv2.1) :
    m.foldlM (fun acc kv => acc.addNutritionalInfo kv.1 kv.2) i
      = .ok { i with nutritionalInfo := i.nutritionalInfo ++ m } := by
  induction m generalizing i with
  | nil =>
    show Except.ok i = _
    rw [List.append_nil]
  | cons kv rest ih =>
    obtain ⟨k, v⟩ := kv
    have hv : (0 : ℚ) ≤ v := hvals _ (List.mem_cons_self _ _)
    have hstep : i.addNutritionalInfo k v
        = .ok { i with nutritionalInfo := i.nutritionalInfo ++ [(k, v)] } := by
      unfold Ingredient.addNutritionalInfo
      rw [if_neg (not_lt.mpr hv),
        upsert_append v (fun kv2 hkv2 => hsep kv2 hkv2 (k, v)
          (List.mem_cons_self _ _))]
    rw [List.foldlM_cons, hstep, except_bind_ok]
    rw [ih (fun kv2 hkv2 => hvals kv2 (List.mem_cons_of_mem _ hkv2))
      (List.Pairwise.of_cons hWF) ?sep]
    case sep =>
      intro kv2 hkv2 kv3 hkv3
      rcases List.mem_append.mp hkv2 with hkv2 | hkv2
      · exact hsep kv2 hkv2 kv3 (List.mem_cons_of_mem _ hkv3)
      · rw [List.mem_singleton] at hkv2
        subst hkv2
        exact (List.pairwise_cons.mp hWF).1 kv3 hkv3
    rw [List.append_assoc, List.singleton_append]

theorem setQuantity_ok {i : Ingredient} {q : ℚ} (h : 0 ≤ q) :
    i.setQuantity q = .ok { i with quantity := q } := by
  unfold Ingredient.setQuantity
  rw [if_neg (not_lt.mpr h)]

theorem setUnitPrice_ok {i : Ingredient} {p : ℚ} (h : 0 ≤ p) :
    i.setUnitPrice p = .ok { i with unitPrice := p } := by
  unfold Ingredient.setUnitPrice
  rw [if_neg (not_lt.mpr h)]

/-- Serialize-then-deserialize reproduces a well-formed `Ingredient`
exactly, id included. -/
theorem ingredient_roundtrip {i : Ingredient} (h : i.SerWF) :
    Ingredient.deserialize (Ingredient.serialize i) = .ok i := by
  obtain ⟨hq, hp, hv, hWF⟩ := h
  unfold Ingredient.deserialize
  simp only [Ingredient.serialize]
  rw [setQuantity_ok hq, except_bind_ok, setUnitPrice_ok hp, except_bind_ok]
  simp only [Ingredient.ctorNamed, Ingredient.setUnit, Ingredient.setExpiryDate]
  rw [unit_ofInt_toInt]
  rw [foldlM_addNutritionalInfo hv hWF (fun kv hkv => absurd hkv
    (List.not_mem_nil kv))]
  rw [List.nil_append]

/-- Validity conditions under which a `Recipe` reachable through the
mutating interface serializes and deserializes exactly: non-empty name,
positive servings (both re-validated by `deserialize`), well-formed
ingredients, and steps sorted with strictly increasing positive orders (as
`addStep`/`removeStep`/`reorderStep` maintain them). -/
def Recipe.SerWF (r : Recipe) : Prop :=
  r.name ≠ "" ∧ 0 < r.servings ∧ (∀ i ∈ r.ingredients, i.SerWF) ∧
    List.Pairwise (fun a b : Step => a.order < b.order) r.steps ∧
    ∀ s ∈ r.steps, 0 < s.order

instance (r : Recipe) : Decidable (Recipe.SerWF r) := by
  unfold Recipe.SerWF; infer_instance

theorem recipe_ctorNamed_ok {newId name desc : String} (h : name ≠ "") :
    Recipe.ctorNamed newId name desc =
      .ok { id := newId, name := name, description := desc,
            difficulty := .easy, servings := 1, ingredients := [],
            steps := [], nutritionalInfo := [] } := by
  unfold Recipe.ctorNamed
  rw [if_neg h]

theorem recipe_setServings_ok {r : Recipe} {n : Int} (h : 0 < n) :
    r.setServings n = .ok { r with servings := n } := by
  unfold Recipe.setServings
  rw [if_neg (by omega)]

theorem foldlM_recipe_addIngredient {l : List Ingredient}
    (h : ∀ i ∈ l, i.SerWF) (r : Recipe) :
    ∃ nmap, l.foldlM (fun acc i => do
        let i2 ← Ingredient.deserialize (Ingredient.serialize i)
        acc.addIngredient (some i2)) r
      = .ok { r with ingredients := r.ingredients ++ l,
                     nutritionalInfo := nmap } := by
  induction l generalizing r with
  | nil =>
    refine ⟨r.nutritionalInfo, ?_⟩
    show Except.ok r = _
    rw [List.append_nil]
  | cons i rest ih =>
    have hi := ingredient_roundtrip (h i (List.mem_cons_self _ _))
    obtain ⟨nmap, hrest⟩ :=
      ih (fun i2 hi2 => h i2 (List.mem_cons_of_mem _ hi2))
        (Recipe.recalculateNutritionalInfo
          { r with ingredients := r.ingredients ++ [i] })
    refine ⟨nmap, ?_⟩
    rw [List.foldlM_cons]
    show (Ingredient.deserialize (Ingredient.serialize i) >>= fun i2 =>
        r.addIngredient (some i2)) >>= _ = _
    rw [hi, except_bind_ok]
    show Except.ok (Recipe.recalculateNutritionalInfo
        { r with ingredients := r.ingredients ++ [i] }) >>= _ = _
    rw [except_bind_ok, hrest]
    show Except.ok _ = _
    simp only [Recipe.recalculateNutritionalInfo]
    rw [List.append_assoc, List.singleton_append]

theorem foldlM_addStep_sorted {l : List Step}
    (hsort : List.Pairwise (fun a b : Step => a.order < b.order) l)
    (hpos : ∀ s ∈ l, 0 < s.order) (r : Recipe)
    (hrsort : List.Sorted stepLE r.steps)
    (hbelow : ∀ e ∈ r.steps, ∀ t ∈ l, e.order < t.order) :
    l.foldlM (fun acc s => acc.addStep s) r
      = .ok { r with steps := r.steps ++ l } := by
  revert hsort hpos hrsort hbelow
  induction l generalizing r with
  | nil =>
    intro _ _ _ _
    show Except.ok r = _
    rw [List.append_nil]
  | cons s rest ih =>
    intro hsort hpos hrsort hbelow
    have h0 : ¬ s.order ≤ 0 := by
      have := hpos s (List.mem_cons_self _ _)
      omega
    have hocc : s.order ∉ stepOrders r.steps := by
      rw [mem_stepOrders]
      rintro ⟨e, he, horder⟩
      have := hbelow e he s (List.mem_cons_self _ _)
      omega
    have hsorted2 : List.Sorted stepLE (r.steps ++ [s]) := by
      rw [List.Sorted, List.pairwise_append]
      refine ⟨hrsort, List.pairwise_singleton _ _, fun a ha b hb => ?_⟩
      rw [List.mem_singleton] at hb
      have halt : a.order < s.order := hbelow a ha s (List.mem_cons_self _ _)
      rw [hb]
      exact le_of_lt halt
    have hbelow2 : ∀ e ∈ r.steps ++ [s], ∀ t ∈ rest, e.order < t.order := by
      intro e he t ht
      rcases List.mem_append.mp he with he | he
      · exact hbelow e he t (List.mem_cons_of_mem _ ht)
      · rw [List.mem_singleton] at he
        subst he
        exact (List.pairwise_cons.mp hsort).1 t ht
    rw [List.foldlM_cons, addStep_ok_fresh h0 hocc, except_bind_ok,
      sortSteps_eq_of_sorted hsorted2]
    rw [ih { r with steps := r.steps ++ [s] } (List.Pairwise.of_cons hsort)
      (fun s2 hs2 => hpos s2 (List.mem_cons_of_mem _ hs2)) hsorted2 hbelow2]
    rw [List.append_assoc, List.singleton_append]

/-- Serialize-then-deserialize reproduces a well-formed `Recipe` exactly:
the re-added ingredients and steps land unchanged (each `addStep` sees a
fresh in-order step, so no shifting occurs) and the directly assigned
nutrient map overwrites the recomputed totals with the serialized ones. -/
theorem recipe_roundtrip {r : Recipe} (h : r.SerWF) :
    Recipe.deserialize (Recipe.serialize r) = .ok r := by
  obtain ⟨hname, hserv, hings, hsort, hpos⟩ := h
  unfold Recipe.deserialize
  simp only [Recipe.serialize]
  rw [recipe_ctorNamed_ok hname, except_bind_ok]
  simp only []
  rw [recipe_setServings_ok hserv, except_bind_ok]
  rw [difficulty_ofInt_toInt]
  simp only [List.foldlM_map]
  obtain ⟨nmap, hingfold⟩ := foldlM_recipe_addIngredient hings
    { id := r.id, name := r.name, description := r.description,
      difficulty := r.difficulty, servings := r.servings, ingredients := [],
      steps := [], nutritionalInfo := [] }
  rw [hingfold, except_bind_ok]
  have hstepfold := foldlM_addStep_sorted hsort hpos
    { id := r.id, name := r.name, description := r.description,
      difficulty := r.difficulty, servings := r.servings,
      ingredients := [] ++ r.ingredients, steps := [],
      nutritionalInfo := nmap }
    (List.sorted_nil) (fun e he => absurd he (List.not_mem_nil e))
  rw [show (fun (x : Recipe) (y : Step) => x.addStep y.toJson.toStep)
      = fun (x : Recipe) (y : Step) => x.addStep y from rfl]
  rw [hstepfold, except_bind_ok]
  rw [List.nil_append, List.nil_append]

theorem foldlM_meal_addIngredient {l : List Ingredient}
    (h : ∀ i ∈ l, i.SerWF) (m : Meal) :
    l.foldlM (fun acc i => do
        let i2 ← Ingredient.deserialize (Ingredient.serialize i)
        acc.addIngredient (some i2)) m
      = .ok { m with
              ingredients := m.ingredients ++ l,
              estimatedCost := (if l = [] then m.estimatedCost
                else ingredientsTotal (m.ingredients ++ l)) } := by
  induction l generalizing m with
  | nil =>
    show Except.ok m = _
    rw [if_pos rfl, List.append_nil]
  | cons i rest ih =>
    have hi := ingredient_roundtrip (h i (List.mem_cons_self _ _))
    rw [List.foldlM_cons]
    show (Ingredient.deserialize (Ingredient.serialize i) >>= fun i2 =>
        m.addIngredient (some i2)) >>= _ = _
    rw [hi, except_bind_ok]
    show Except.ok
        (Meal.updateCost { m with ingredients := m.ingredients ++ [i] })
        >>= _ = _
    rw [except_bind_ok,
      ih (fun i2 hi2 => h i2 (List.mem_cons_of_mem _ hi2))]
    by_cases hrest : rest = []
    · subst hrest
      simp [Meal.updateCost]
    · simp [Meal.updateCost, hrest, List.append_assoc]

/-- Validity conditions under which a `Meal` reachable through the mutating
interface serializes cleanly: positive servings, well-formed own
ingredients, and a well-formed attached recipe when present. -/
def Meal.SerWF (m : Meal) : Prop :=
  0 < m.servings ∧ (∀ i ∈ m.ingredients, i.SerWF) ∧
    ∀ r, m.recipe = some r → r.SerWF

instance decMealRecipeWF (m : Meal) :
    Decidable (∀ r, m.recipe = some r → Recipe.SerWF r) :=
  match m.recipe with
  | none => isTrue (fun _ h => nomatch h)
  | some r0 =>
    if h : Recipe.SerWF r0 then
      isTrue (fun r hr => by
        injection hr with hh
        rw [← hh]
        exact h)
    else
      isFalse (fun hall => h (hall r0 rfl))

instance (m : Meal) : Decidable (Meal.SerWF m) := by
  unfold Meal.SerWF; infer_instance

/-- C3 (amended): serialize-then-deserialize reproduces the
name, type, status, planned time, servings and attached recipe of a
well-formed meal.  The
own ingredient list and the stored estimated cost are reproduced only when
no recipe is attached (the cost is recomputed from the re-added ingredients
when the list is non-empty, which reproduces it whenever it was consistent).
When a recipe is embedded, `deserialize` rebuilds the own ingredient
list of the meal first and then attaches the recipe through `setRecipe`,
which replaces the just-rebuilt list with copies of the recipe ingredients
and recomputes
the cost — so the deserialized meal carries the recipe ingredient list and
its cost total, not the serialized ones. -/
theorem c3_meal_serialize_roundtrip (m : Meal) (h : Meal.SerWF m) :
    ∃ m2, Meal.deserialize (Meal.serialize m) = .ok m2 ∧
      m2.name = m.name ∧ m2.type = m.type ∧ m2.status = m.status ∧
      m2.plannedTime = m.plannedTime ∧ m2.servings = m.servings ∧
      m2.recipe = m.recipe ∧
      (m.recipe = none →
        m2.ingredients = m.ingredients ∧
        m2.estimatedCost = (if m.ingredients = [] then m.estimatedCost
          else ingredientsTotal m.ingredients)) ∧
      (∀ r, m.recipe = some r →
        m2.ingredients = r.ingredients ∧
        m2.estimatedCost = ingredientsTotal r.ingredients) := by
  obtain ⟨hserv, hings, hrec⟩ := h
  unfold Meal.deserialize
  simp only [Meal.serialize, Meal.ctorNamed, Meal.setType, Meal.setStatus,
    Meal.setPlannedTime]
  rw [mealType_ofInt_toInt, mealStatus_ofInt_toInt]
  simp only [List.foldlM_map]
  rw [foldlM_meal_addIngredient hings, except_bind_ok]
  rcases hrecopt : m.recipe with - | r
  · exact ⟨_, rfl, rfl, rfl, rfl, rfl, rfl, rfl,
      fun _ => ⟨rfl, rfl⟩, fun r2 hr2 => nomatch hr2⟩
  · simp only [Option.map_some']
    rw [recipe_roundtrip (hrec r hrecopt), except_bind_ok]
    refine ⟨_, setRecipe_some ?_, ?_, ?_, ?_, ?_, ?_, ?_, ?_, ?_⟩
    · show ¬ (m.servings ≤ 0)
      omega
    · rfl
    · rfl
    · rfl
    · rfl
    · rfl
    · rfl
    · intro hn
      cases hn
    · intro r2 hr2
      injection hr2 with hh
      rw [← hh]
      exact ⟨rfl, rfl⟩

/-- A concrete recipe ingredient (1 unit at price 2). -/
def ingA : Ingredient :=
  { id := "ing_a", name := "a", quantity := 1, unit := .gram, unitPrice := 2,
    expiryDate := 0, nutritionalInfo := [] }

/-- A concrete meal ingredient (3 units at price 5), different from `ingA`. -/
def ingB : Ingredient :=
  { id := "ing_b", name := "b", quantity := 3, unit := .gram, unitPrice := 5,
    expiryDate := 0, nutritionalInfo := [] }

/-- A concrete recipe whose only ingredient is `ingA`. -/
def recC3 : Recipe :=
  { id := "rec_c3", name := "r", description := "", difficulty := .easy,
    servings := 1, ingredients := [ingA], steps := [], nutritionalInfo := [] }

/-- A concrete meal attached to `recC3` whose own ingredient list `[ingB]`
differs from the list of the recipe. -/
def mealC3 : Meal :=
  { name := "m", type := .breakfast, status := .planned, plannedTime := 0,
    recipe := some recC3, ingredients := [ingB], estimatedCost := 15,
    servings := 1 }

/-- C3, counterexample: round-tripping `mealC3` does not reproduce it field
for field — the ingredient list of the deserialized meal is `[ingA]` (copied from
the embedded recipe by the trailing `setRecipe` call), not the serialized
own list `[ingB]`; deserialization rebuilds the own ingredient list
first and the recipe afterwards, and the recipe assignment overwrites the
list, contradicting both the field-for-field claim and the claimed
reconstruction order. -/
theorem c3_cex_recipe_overwrites_ingredients :
    mealC3.ingredients = [ingB] ∧ ingB ≠ ingA ∧
      (Meal.deserialize (Meal.serialize mealC3)).map Meal.ingredients
        = .ok [ingA] := by
  refine ⟨rfl, by decide, ?_⟩
  rfl

/-- C3, witness: the amended round-trip statement evaluated at `mealC3`. -/
theorem c3_meal_roundtrip_witness :
    Meal.SerWF mealC3 ∧
      ∃ m2, Meal.deserialize (Meal.serialize mealC3) = .ok m2 ∧
        m2.name = mealC3.name ∧ m2.type = mealC3.type ∧
        m2.status = mealC3.status ∧
        m2.plannedTime = mealC3.plannedTime ∧
        m2.servings = mealC3.servings ∧
        m2.recipe = mealC3.recipe ∧
        (mealC3.recipe = none →
          m2.ingredients = mealC3.ingredients ∧
          m2.estimatedCost = (if mealC3.ingredients = [] then
            mealC3.estimatedCost else ingredientsTotal mealC3.ingredients)) ∧
        (∀ r, mealC3.recipe = some r →
          m2.ingredients = r.ingredients ∧
          m2.estimatedCost = ingredientsTotal r.ingredients) :=
  ⟨by decide, c3_meal_serialize_roundtrip mealC3 (by decide)⟩

end SmartFood
